import Mathlib

/-!
# appsync-workshop: the `listDataPoints` query lambda and the `createDataPoint` pipeline

A shallow embedding of

* `lambda/listDataPoints/index.js` (`mapKeyToExpr`, `expr`, `listDataPoints`, `handler`),
* `lambda/customAuthorizer/index.js` (`handler`),
* the `createDataPoint` pipeline resolver declared in `lib/appsync-workshop-stack.js`,

followed by the properties proved about them.

JavaScript values are embedded as the inductive type `JSVal`.  Strings are sequences of
Unicode scalar values (Lean `String`); a Number is carried as the numeric literal that denotes
it (the text `Number::toString` prints for it, or the literal as written when it comes out of
`JSON.parse`), because the program never computes with numbers: it only passes them on and
serialises them.  An exception is an error of `Except`; `null` returned to the caller is `none`.

The platform functions the lambda calls (`JSON.stringify`, `JSON.parse`, `Buffer.from`,
`buffer.toString`) are embedded from their specifications: ECMA-262 for JSON, the WHATWG
UTF-8 decoder, and the lenient base64 decoding of Node.js.  Calls to `console.log` have no
effect on the results and are left out.  The base64 decoding reads a text by its UTF-16 code
units and keeps the low 8 bits of each, as Node.js does.  A string with an unpaired surrogate
is not a Lean `String` and so is outside the embedding.  Two further limits: the order in which
JavaScript lists property names that are array indices is not modelled (an object is the list
of its properties in the order they are listed), and neither is the limit the engine puts on
the nesting depth of a JSON text.
-/

namespace AppsyncWorkshop

/-! ## JavaScript values -/

/-- A JavaScript value of the kinds this program handles.  An object is the list of its own
properties, in the order `Object.keys` and `JSON.stringify` list them; its property names are
distinct. -/
inductive JSVal where
  | undefined : JSVal
  | null : JSVal
  | bool (b : Bool) : JSVal
  | num (literal : String) : JSVal
  | str (s : String) : JSVal
  | arr (items : List JSVal) : JSVal
  | obj (props : List (String × JSVal)) : JSVal

/-- The own properties of a JavaScript object, in the order they are listed. -/
abbrev Props := List (String × JSVal)

/-- The exceptions this program can meet. -/
inductive JSError where
  | typeError : JSError
  | syntaxError : JSError
  deriving DecidableEq, Repr

/-- Property read `o[key]` on an object: the value of the own property, `undefined` when
there is none. -/
def getProp : Props → String → JSVal
  | [], _ => JSVal.undefined
  | (k, v) :: rest, key => if k = key then v else getProp rest key

/-- The result of `Object.keys(o)[0]`: the first own property name, `none` (JavaScript
`undefined`) for an object without properties. -/
def firstKey : Props → Option String
  | [] => none
  | (k, _) :: _ => some k

/-- The property read `filter[key]` where `key` is `Object.keys(filter)[0]`.  When the object
has no property, `key` is `undefined` and the read looks up the property named
`"undefined"`. -/
def getFirst (filter : Props) : JSVal :=
  match firstKey filter with
  | some k => getProp filter k
  | none => getProp filter "undefined"

/-- The UTF-16 code units of a string. -/
def utf16Units : List Char → List Nat
  | [] => []
  | c :: cs =>
    if c.toNat < 0x10000 then c.toNat :: utf16Units cs
    else (0xD800 + (c.toNat - 0x10000) / 0x400) :: (0xDC00 + (c.toNat - 0x10000) % 0x400)
      :: utf16Units cs

/-- The one-unit string holding a UTF-16 code unit.  A surrogate standing alone is not a
Unicode scalar value; it is represented by U+FFFD. -/
def unitString (u : Nat) : String :=
  if 0xD800 ≤ u ∧ u ≤ 0xDFFF then String.mk [Char.ofNat 0xFFFD] else String.mk [Char.ofNat u]

/-- Indexed read `v[i]` for a numeric index `i`.  Reading a property of `null` or `undefined`
throws a `TypeError`; a string yields its `i`-th code unit, an array its `i`-th element, an
object the property named by the decimal numeral, and every other value `undefined`. -/
def getIndex (v : JSVal) (i : Nat) : Except JSError JSVal :=
  match v with
  | JSVal.undefined => Except.error JSError.typeError
  | JSVal.null => Except.error JSError.typeError
  | JSVal.bool _ => Except.ok JSVal.undefined
  | JSVal.num _ => Except.ok JSVal.undefined
  | JSVal.str s =>
    match (utf16Units s.data).get? i with
    | some u => Except.ok (JSVal.str (unitString u))
    | none => Except.ok JSVal.undefined
  | JSVal.arr items =>
    match items.get? i with
    | some x => Except.ok x
    | none => Except.ok JSVal.undefined
  | JSVal.obj props => Except.ok (getProp props (toString i))

/-! ## `mapKeyToExpr` and `expr` -/

/-- Source: `mapKeyToExpr` in `lambda/listDataPoints/index.js`.  The argument is the first
key of the filter, `none` when the filter has no key (`undefined`, which takes the
`default` branch).  The docstring in the source tags the function `@async`; it is a
synchronous function that returns the string itself. -/
def mapKeyToExpr (key : Option String) : String :=
  match key with
  | some "gt" => "#SK > :SK"
  | some "eq" => "#SK = :SK"
  | some "le" => "#SK <= :SK"
  | some "lt" => "#SK < :SK"
  | some "ge" => "#SK >= :SK"
  | some "between" => "#SK BETWEEN :SK0 AND :SK1"
  | some "beginsWith" => "begins_with(#SK, :SK)"
  | _ => ""

/-- The object `expr` returns: `{}` has all three fields absent. -/
structure RangeExpr where
  Names : Option Props
  Expr : Option String
  Values : Option Props

/-- The empty object `{}` returned when no filter is supplied. -/
def RangeExpr.empty : RangeExpr := ⟨none, none, none⟩

/-- Source: `expr` in `lambda/listDataPoints/index.js`.  The filter is the GraphQL input
object `createdAt`, `none` when it is `null` or `undefined`. -/
def expr (filter : Option Props) : Except JSError RangeExpr :=
  match filter with
  | none => Except.ok RangeExpr.empty
  | some f =>
    let key := firstKey f
    if key ≠ some "between" then
      Except.ok ⟨some [("#SK", JSVal.str "SK")], some (mapKeyToExpr key),
        some [(":SK", getFirst f)]⟩
    else
      match getIndex (getFirst f) 0, getIndex (getFirst f) 1 with
      | Except.ok v0, Except.ok v1 =>
        Except.ok ⟨some [("#SK", JSVal.str "SK")], some (mapKeyToExpr key),
          some [(":SK0", v0), (":SK1", v1)]⟩
      | Except.error e, _ => Except.error e
      | _, Except.error e => Except.error e

/-! ## Text, bytes and the platform codecs

Text is handled as the list of its code points and a `Buffer` as the list of its bytes. -/

/-- The code points of a string. -/
def codes (s : String) : List Nat := s.data.map Char.toNat

/-- The string with the given code points. -/
def ofCodes (l : List Nat) : String := String.mk (l.map Char.ofNat)

/-- The UTF-8 bytes of one code point. -/
def utf8EncodeChar (n : Nat) : List Nat :=
  if n < 0x80 then [n]
  else if n < 0x800 then [0xC0 + n / 64, 0x80 + n % 64]
  else if n < 0x10000 then [0xE0 + n / 4096, 0x80 + n / 64 % 64, 0x80 + n % 64]
  else [0xF0 + n / 262144, 0x80 + n / 4096 % 64, 0x80 + n / 64 % 64, 0x80 + n % 64]

/-- Platform `Buffer.from(text)`: the UTF-8 encoding of a text. -/
def utf8Encode : List Nat → List Nat
  | [] => []
  | c :: cs => utf8EncodeChar c ++ utf8Encode cs

/-- The state of the UTF-8 decoder between two bytes: how many continuation bytes are still
needed (0 between characters), the code point bits read so far, and the range allowed for the
next byte. -/
structure Utf8State where
  needed : Nat
  cp : Nat
  lo : Nat
  hi : Nat

/-- The decoder state between characters. -/
def Utf8State.init : Utf8State := ⟨0, 0, 0x80, 0xBF⟩

/-- The decoder on a byte that starts a character: the code points it emits and the next
state. -/
def utf8Start (b : Nat) : List Nat × Utf8State :=
  if b < 0x80 then ([b], Utf8State.init)
  else if 0xC2 ≤ b ∧ b ≤ 0xDF then ([], ⟨1, b - 0xC0, 0x80, 0xBF⟩)
  else if 0xE0 ≤ b ∧ b ≤ 0xEF then
    ([], ⟨2, b - 0xE0, if b = 0xE0 then 0xA0 else 0x80, if b = 0xED then 0x9F else 0xBF⟩)
  else if 0xF0 ≤ b ∧ b ≤ 0xF4 then
    ([], ⟨3, b - 0xF0, if b = 0xF0 then 0x90 else 0x80, if b = 0xF4 then 0x8F else 0xBF⟩)
  else ([0xFFFD], Utf8State.init)

/-- The UTF-8 decoder run from a state over the remaining bytes.  A byte that cannot continue
the current character ends it with U+FFFD and is then read as the start of a character;
input that ends inside a character ends with U+FFFD. -/
def utf8Run : Utf8State → List Nat → List Nat
  | st, [] => if st.needed = 0 then [] else [0xFFFD]
  | st, b :: rest =>
    if st.needed = 0 then
      (utf8Start b).1 ++ utf8Run (utf8Start b).2 rest
    else if st.lo ≤ b ∧ b ≤ st.hi then
      if st.needed = 1 then (st.cp * 64 + (b - 0x80)) :: utf8Run Utf8State.init rest
      else utf8Run ⟨st.needed - 1, st.cp * 64 + (b - 0x80), 0x80, 0xBF⟩ rest
    else
      0xFFFD :: ((utf8Start b).1 ++ utf8Run (utf8Start b).2 rest)

/-- Platform `buffer.toString()`: UTF-8 decoding that never fails; ill-formed input is
replaced by U+FFFD. -/
def utf8Decode (bytes : List Nat) : List Nat := utf8Run Utf8State.init bytes

/-- The character of the base64 alphabet for a 6-bit value. -/
def b64Char (n : Nat) : Nat :=
  if n < 26 then 65 + n
  else if n < 52 then 71 + n
  else if n < 62 then n - 4
  else if n = 62 then 43
  else 47

/-- Platform `buffer.toString` with encoding base64: base64 with padding. -/
def base64Encode : List Nat → List Nat
  | [] => []
  | [a] => [b64Char (a / 4), b64Char (a % 4 * 16), 61, 61]
  | [a, b] => [b64Char (a / 4), b64Char (a % 4 * 16 + b / 16), b64Char (b % 16 * 4), 61]
  | a :: b :: c :: rest =>
    b64Char (a / 4) :: b64Char (a % 4 * 16 + b / 16) :: b64Char (b % 16 * 4 + c / 64)
      :: b64Char (c % 64) :: base64Encode rest

/-- The 6-bit value of a base64 character; the platform also accepts the URL-safe
characters `-` and `_`. -/
def b64Val (c : Nat) : Option Nat :=
  if 65 ≤ c ∧ c ≤ 90 then some (c - 65)
  else if 97 ≤ c ∧ c ≤ 122 then some (c - 71)
  else if 48 ≤ c ∧ c ≤ 57 then some (c + 4)
  else if c = 43 ∨ c = 45 then some 62
  else if c = 47 ∨ c = 95 then some 63
  else none

/-- The 6-bit values a base64 text carries.  The text is a sequence of UTF-16 code units, of
which the decoder reads the low 8 bits only; characters outside the alphabet are skipped and
the first `=` ends the data. -/
def b64Sextets : List Nat → List Nat
  | [] => []
  | c :: cs =>
    if c % 256 = 61 then []
    else
      match b64Val (c % 256) with
      | some v => v :: b64Sextets cs
      | none => b64Sextets cs

/-- The bytes carried by a sequence of 6-bit values; an incomplete last group yields the
bytes it determines. -/
def b64Bytes : List Nat → List Nat
  | a :: b :: c :: d :: rest =>
    (a * 4 + b / 16) :: (b % 16 * 16 + c / 4) :: (c % 4 * 64 + d) :: b64Bytes rest
  | [a, b, c] => [a * 4 + b / 16, b % 16 * 16 + c / 4]
  | [a, b] => [a * 4 + b / 16]
  | _ => []

/-- Platform `Buffer.from(text, encoding)` with encoding base64, on the UTF-16 code units of
the text: lenient base64 decoding, which never fails. -/
def base64Decode (text : List Nat) : List Nat := b64Bytes (b64Sextets text)

/-! ## `JSON.stringify` -/

/-- The lower-case hexadecimal digit for a value below 16. -/
def hexDigit (n : Nat) : Nat := if n < 10 then 48 + n else 87 + n

/-- The escape `\uXXXX` of a code unit. -/
def unicodeEscape (u : Nat) : List Nat :=
  [92, 117, hexDigit (u / 4096), hexDigit (u / 256 % 16), hexDigit (u / 16 % 16),
    hexDigit (u % 16)]

/-- How `JSON.stringify` writes one code point of a string: the short escapes for backspace,
tab, line feed, form feed, carriage return, the double quote and the backslash, a `\uXXXX`
escape for other control characters and for a surrogate standing alone, and the code point
itself otherwise. -/
def quoteChar (c : Nat) : List Nat :=
  if c = 8 then [92, 98]
  else if c = 9 then [92, 116]
  else if c = 10 then [92, 110]
  else if c = 12 then [92, 102]
  else if c = 13 then [92, 114]
  else if c = 34 then [92, 34]
  else if c = 92 then [92, 92]
  else if c < 32 ∨ (0xD800 ≤ c ∧ c ≤ 0xDFFF) then unicodeEscape c
  else [c]

/-- The escaped content of a string, without the enclosing quotes. -/
def quoteChars : List Nat → List Nat
  | [] => []
  | c :: cs => quoteChar c ++ quoteChars cs

/-- ECMAScript `QuoteJSONString`. -/
def quoteJSONString (s : String) : List Nat := 34 :: (quoteChars (codes s) ++ [34])

/-- The members of a list joined by commas. -/
def joinComma : List (List Nat) → List Nat
  | [] => []
  | [x] => x
  | x :: y :: rest => x ++ 44 :: joinComma (y :: rest)

/-- Whether a Number is finite: it is not one of `NaN`, `Infinity` and `-Infinity`, which
`JSON.stringify` writes as `null`. -/
def isFiniteNumber (literal : String) : Bool :=
  !(decide (literal = "NaN") || decide (literal = "Infinity") || decide (literal = "-Infinity"))

mutual
/-- ECMAScript `SerializeJSONProperty` without indentation: the JSON text of a value, `none`
for `undefined`. -/
def serialize : JSVal → Option (List Nat)
  | JSVal.undefined => none
  | JSVal.null => some (codes "null")
  | JSVal.bool true => some (codes "true")
  | JSVal.bool false => some (codes "false")
  | JSVal.num literal => some (if isFiniteNumber literal then codes literal else codes "null")
  | JSVal.str s => some (quoteJSONString s)
  | JSVal.arr items => some (91 :: (joinComma (serializeItems items) ++ [93]))
  | JSVal.obj props => some (123 :: (joinComma (serializeProps props) ++ [125]))
/-- The texts of the elements of an array; `undefined` is written `null`. -/
def serializeItems : List JSVal → List (List Nat)
  | [] => []
  | x :: xs =>
    (match serialize x with
      | some t => t
      | none => codes "null") :: serializeItems xs
/-- The texts of the members of an object; a property whose value is `undefined` is left
out. -/
def serializeProps : List (String × JSVal) → List (List Nat)
  | [] => []
  | (k, v) :: rest =>
    match serialize v with
    | some t => (quoteJSONString k ++ 58 :: t) :: serializeProps rest
    | none => serializeProps rest
end

/-! ## `JSON.parse` -/

/-- Skip JSON white space: space, tab, line feed, carriage return. -/
def skipWs : List Nat → List Nat
  | [] => []
  | c :: cs => if c = 32 ∨ c = 9 ∨ c = 10 ∨ c = 13 then skipWs cs else c :: cs

/-- Whether a code point is a decimal digit. -/
def isDigit (c : Nat) : Bool := decide (48 ≤ c ∧ c ≤ 57)

/-- The longest run of digits at the start of a text, and what follows it. -/
def takeDigits : List Nat → List Nat × List Nat
  | [] => ([], [])
  | c :: cs => if isDigit c then ((c :: (takeDigits cs).1), (takeDigits cs).2) else ([], c :: cs)

/-- The integer part of a JSON number: `0`, or a non-zero digit followed by digits. -/
def scanInt : List Nat → Option (List Nat × List Nat)
  | [] => none
  | c :: cs =>
    if c = 48 then some ([48], cs)
    else if 49 ≤ c ∧ c ≤ 57 then some (c :: (takeDigits cs).1, (takeDigits cs).2)
    else none

/-- The optional fraction of a JSON number: a point followed by at least one digit. -/
def scanFrac : List Nat → Option (List Nat × List Nat)
  | [] => some ([], [])
  | c :: cs =>
    if c = 46 then
      (if (takeDigits cs).1 = [] then none else some (46 :: (takeDigits cs).1, (takeDigits cs).2))
    else some ([], c :: cs)

/-- The digits of an exponent, after the optional sign: at least one digit. -/
def scanExpDigits (cs : List Nat) : Option (List Nat × List Nat) :=
  if (takeDigits cs).1 = [] then none else some ((takeDigits cs).1, (takeDigits cs).2)

/-- The optional exponent of a JSON number: `e` or `E`, an optional sign, at least one
digit. -/
def scanExp : List Nat → Option (List Nat × List Nat)
  | [] => some ([], [])
  | c :: cs =>
    if c = 101 ∨ c = 69 then
      match cs with
      | [] => none
      | d :: ds =>
        if d = 43 ∨ d = 45 then
          (match scanExpDigits ds with
            | some (t, r) => some (c :: d :: t, r)
            | none => none)
        else
          (match scanExpDigits (d :: ds) with
            | some (t, r) => some (c :: t, r)
            | none => none)
    else some ([], c :: cs)

/-- An unsigned JSON number at the start of a text: the literal and what follows it. -/
def scanUnsigned (cs : List Nat) : Option (List Nat × List Nat) :=
  match scanInt cs with
  | none => none
  | some (i, r1) =>
    match scanFrac r1 with
    | none => none
    | some (f, r2) =>
      match scanExp r2 with
      | none => none
      | some (e, r3) => some (i ++ f ++ e, r3)

/-- A JSON number at the start of a text: the literal and what follows it. -/
def scanNumber : List Nat → Option (List Nat × List Nat)
  | [] => none
  | c :: cs =>
    if c = 45 then
      (match scanUnsigned cs with
        | some (t, r) => some (45 :: t, r)
        | none => none)
    else scanUnsigned (c :: cs)

/-- The value of a hexadecimal digit, in either case. -/
def hexVal (c : Nat) : Option Nat :=
  if 48 ≤ c ∧ c ≤ 57 then some (c - 48)
  else if 97 ≤ c ∧ c ≤ 102 then some (c - 87)
  else if 65 ≤ c ∧ c ≤ 70 then some (c - 55)
  else none

/-- The code unit written by four hexadecimal digits. -/
def hex4 (a b c d : Nat) : Option Nat :=
  match hexVal a, hexVal b, hexVal c, hexVal d with
  | some x, some y, some z, some w => some (x * 4096 + y * 256 + z * 16 + w)
  | _, _, _, _ => none

/-- Put a code point in front of the string a parse returned. -/
def consChar (c : Nat) : Option (List Nat × List Nat) → Option (List Nat × List Nat)
  | some (s, r) => some (c :: s, r)
  | none => none

/-- The content of a JSON string after its opening quote, up to the closing quote: the code
points and escaped code units of the string, and what follows the closing quote. -/
def parseChars : List Nat → Option (List Nat × List Nat)
  | [] => none
  | c :: cs =>
    if c = 34 then some ([], cs)
    else if c = 92 then
      match cs with
      | [] => none
      | e :: r =>
        if e = 34 ∨ e = 92 ∨ e = 47 then consChar e (parseChars r)
        else if e = 98 then consChar 8 (parseChars r)
        else if e = 102 then consChar 12 (parseChars r)
        else if e = 110 then consChar 10 (parseChars r)
        else if e = 114 then consChar 13 (parseChars r)
        else if e = 116 then consChar 9 (parseChars r)
        else if e = 117 then
          match r with
          | h1 :: h2 :: h3 :: h4 :: r4 =>
            match hex4 h1 h2 h3 h4 with
            | some u => consChar u (parseChars r4)
            | none => none
          | _ => none
        else none
    else if c < 32 then none
    else consChar c (parseChars cs)

/-- The string value of parsed string content: a high surrogate directly followed by a low
surrogate is the code point of the pair; a surrogate standing alone, which JavaScript keeps as
an unpaired code unit, is represented by U+FFFD. -/
def joinSurrogates : List Nat → List Nat
  | [] => []
  | [u] => if 0xD800 ≤ u ∧ u ≤ 0xDFFF then [0xFFFD] else [u]
  | u :: w :: rest =>
    if 0xD800 ≤ u ∧ u ≤ 0xDBFF ∧ 0xDC00 ≤ w ∧ w ≤ 0xDFFF then
      (0x10000 + (u - 0xD800) * 0x400 + (w - 0xDC00)) :: joinSurrogates rest
    else if 0xD800 ≤ u ∧ u ≤ 0xDFFF then 0xFFFD :: joinSurrogates (w :: rest)
    else u :: joinSurrogates (w :: rest)

/-- A JSON string after its opening quote: the string and what follows the closing quote. -/
def parseString (cs : List Nat) : Option (String × List Nat) :=
  match parseChars cs with
  | some (raw, r) => some (ofCodes (joinSurrogates raw), r)
  | none => none

/-- Property definition `o[key] = v` as `JSON.parse` performs it: an existing property keeps
its place and takes the new value, a new property is added last. -/
def setProp : Props → String → JSVal → Props
  | [], key, v => [(key, v)]
  | (k, w) :: rest, key, v => if k = key then (k, v) :: rest else (k, w) :: setProp rest key v

mutual
/-- A JSON value at the start of a text, after optional white space: the value and what
follows it.  The first argument bounds the number of nested and successive values; the
length of the text is always enough. -/
def parseValue : Nat → List Nat → Option (JSVal × List Nat)
  | 0, _ => none
  | fuel + 1, cs =>
    match skipWs cs with
    | [] => none
    | c :: r =>
      if c = 123 then
        match skipWs r with
        | [] => none
        | d :: r1 => if d = 125 then some (JSVal.obj [], r1) else parseMembers fuel (d :: r1) []
      else if c = 91 then
        match skipWs r with
        | [] => none
        | d :: r1 => if d = 93 then some (JSVal.arr [], r1) else parseElements fuel (d :: r1) []
      else if c = 34 then
        match parseString r with
        | some (s, r1) => some (JSVal.str s, r1)
        | none => none
      else if c = 116 then
        match r with
        | 114 :: 117 :: 101 :: r1 => some (JSVal.bool true, r1)
        | _ => none
      else if c = 102 then
        match r with
        | 97 :: 108 :: 115 :: 101 :: r1 => some (JSVal.bool false, r1)
        | _ => none
      else if c = 110 then
        match r with
        | 117 :: 108 :: 108 :: r1 => some (JSVal.null, r1)
        | _ => none
      else
        match scanNumber (c :: r) with
        | some (t, r1) => some (JSVal.num (ofCodes t), r1)
        | none => none
/-- The members of an object from its first member name on, white space before it skipped,
up to the closing brace; the third argument holds the properties defined so far. -/
def parseMembers : Nat → List Nat → Props → Option (JSVal × List Nat)
  | 0, _, _ => none
  | fuel + 1, cs, acc =>
    match cs with
    | [] => none
    | q :: r =>
      if q = 34 then
        match parseString r with
        | none => none
        | some (k, r1) =>
          match skipWs r1 with
          | [] => none
          | colon :: r2 =>
            if colon = 58 then
              match parseValue fuel r2 with
              | none => none
              | some (v, r3) =>
                match skipWs r3 with
                | [] => none
                | d :: r4 =>
                  if d = 44 then parseMembers fuel (skipWs r4) (setProp acc k v)
                  else if d = 125 then some (JSVal.obj (setProp acc k v), r4)
                  else none
            else none
      else none
/-- The elements of an array from its first element on, up to the closing bracket; the
third argument holds the elements read so far. -/
def parseElements : Nat → List Nat → List JSVal → Option (JSVal × List Nat)
  | 0, _, _ => none
  | fuel + 1, cs, acc =>
    match parseValue fuel cs with
    | none => none
    | some (v, r1) =>
      match skipWs r1 with
      | [] => none
      | d :: r2 =>
        if d = 44 then parseElements fuel r2 (acc ++ [v])
        else if d = 93 then some (JSVal.arr (acc ++ [v]), r2)
        else none
end

/-- ECMAScript `JSON.parse` of a text: one JSON value surrounded by optional white space;
`none` stands for the `SyntaxError` thrown on any other text.  The fuel given to the parser is
enough for every text (`parseValue_fuel`). -/
def jsonParse (text : List Nat) : Option JSVal :=
  match parseValue (text.length + 1) text with
  | some (v, r) => if skipWs r = [] then some v else none
  | none => none

/-! ## The cursor token -/

/-- Source: the decoding of `nextToken` in `listDataPoints`,
`nextToken ? JSON.parse(Buffer.from(nextToken, base64)) : null` inside `try`/`catch`.
The token is `none` when it is `null` or `undefined`; an empty string is falsy as well.
`ExclusiveStartKey` starts as `null` and keeps that value when `JSON.parse` throws. -/
def decodeNextToken (nextToken : Option String) : JSVal :=
  match nextToken with
  | none => JSVal.null
  | some t =>
    if t = "" then JSVal.null
    else
      match jsonParse (utf8Decode (base64Decode (utf16Units t.data))) with
      | some v => v
      | none => JSVal.null

/-- The text `JSON.stringify` writes for a key object. -/
def keyText (k : Props) : List Nat := 123 :: (joinComma (serializeProps k) ++ [125])

/-- Source: the encoding of the last evaluated key in `listDataPoints`,
`Buffer.from(JSON.stringify(last)).toString(base64)`, for a key object. -/
def encodeKey (last : Props) : String :=
  ofCodes (base64Encode (utf8Encode (keyText last)))

/-- Source: `const nextToken = last ? ... : null` in `listDataPoints`.  The last evaluated
key is `none` when the store reports none; an object, also an empty one, is truthy.
`Buffer.from` throws a `TypeError` when `JSON.stringify` returned `undefined`. -/
def nextTokenOf (last : Option Props) : Except JSError JSVal :=
  match last with
  | none => Except.ok JSVal.null
  | some k =>
    match serialize (JSVal.obj k) with
    | some t => Except.ok (JSVal.str (ofCodes (base64Encode (utf8Encode t))))
    | none => Except.error JSError.typeError

/-! ## `listDataPoints` and its handler -/

/-- The arguments of the `listDataPoints` field.  `owner` and `name` are the required
strings of the GraphQL field; `limit` and `sortDirection` are `undefined` when not given. -/
structure Args where
  owner : String
  name : String
  createdAt : Option Props
  limit : JSVal
  nextToken : Option String
  sortDirection : JSVal

/-- The parameter object passed to `client.query`. -/
structure QueryParams where
  TableName : Option String
  ExpressionAttributeNames : Props
  ExpressionAttributeValues : Props
  KeyConditionExpression : String
  ScanIndexForward : Bool
  Limit : JSVal
  ExclusiveStartKey : JSVal

/-- The answer of the store to a query: the page of items, the last evaluated key when there
is a further page, and the remaining fields of the answer. -/
structure QueryOutput where
  Items : JSVal
  LastEvaluatedKey : Option Props
  Count : JSVal
  ScannedCount : JSVal
  ConsumedCapacity : JSVal

/-- The object `{ items, nextToken, ...rest }` returned by `listDataPoints`. -/
structure ListResult where
  items : JSVal
  nextToken : JSVal
  Count : JSVal
  ScannedCount : JSVal
  ConsumedCapacity : JSVal

/-- The store behind `client.query(params).promise()`: it answers or fails. -/
abbrev Store := QueryParams → Except String QueryOutput

/-- The partition key built by the template literal in `listDataPoints`: owner, a hash
sign, name. -/
def partitionKey (owner name : String) : String := owner ++ "#" ++ name

/-- Object spread `{ ...base, ...extra }` onto the properties already written; spreading
`undefined` adds nothing. -/
def spread (base : Props) (extra : Option Props) : Props :=
  match extra with
  | none => base
  | some e => e.foldl (fun acc kv => setProp acc kv.1 kv.2) base

/-- The key condition: the partition condition, followed by the range expression when that is
a non-empty string. -/
def keyCondition (e : Option String) : String :=
  "#PK = :PK" ++
    (match e with
      | some x => if x = "" then "" else " AND " ++ x
      | none => "")

/-- A parameter with a default value: the default replaces `undefined` only. -/
def orDefault (v d : JSVal) : JSVal :=
  match v with
  | JSVal.undefined => d
  | w => w

/-- The comparison `sortDirection === ASC`. -/
def isAsc (v : JSVal) : Bool :=
  match v with
  | JSVal.str s => decide (s = "ASC")
  | _ => false

/-- Source: the object `params` built in `listDataPoints` from the arguments and the range
expression `p`; the first argument is the environment variable `TABLE`. -/
def queryParams (table : Option String) (w : Args) (p : RangeExpr) : QueryParams :=
  { TableName := table
    ExpressionAttributeNames := spread [("#PK", JSVal.str "PK")] p.Names
    ExpressionAttributeValues :=
      spread [(":PK", JSVal.str (partitionKey w.owner w.name))] p.Values
    KeyConditionExpression := keyCondition p.Expr
    ScanIndexForward := isAsc (orDefault w.sortDirection (JSVal.str "ASC"))
    Limit := orDefault w.limit (JSVal.num "100")
    ExclusiveStartKey := decodeNextToken w.nextToken }

/-- The query `listDataPoints` issues for its arguments, or the exception `expr` throws
before any query is made. -/
def issuedQuery (table : Option String) (w : Args) : Except JSError QueryParams :=
  match expr w.createdAt with
  | Except.ok p => Except.ok (queryParams table w p)
  | Except.error e => Except.error e

/-- Source: `listDataPoints` in `lambda/listDataPoints/index.js`.  The result is the returned
object, `none` for `null`; an exception thrown outside the `try` blocks is an error. -/
def listDataPoints (table : Option String) (store : Store) (w : Args) :
    Except JSError (Option ListResult) :=
  match issuedQuery table w with
  | Except.error e => Except.error e
  | Except.ok params =>
    match store params with
    | Except.error _ => Except.ok none
    | Except.ok results =>
      match nextTokenOf results.LastEvaluatedKey with
      | Except.error _ => Except.ok none
      | Except.ok token =>
        Except.ok (some
          { items := results.Items
            nextToken := token
            Count := results.Count
            ScannedCount := results.ScannedCount
            ConsumedCapacity := results.ConsumedCapacity })

/-- The event a resolver passes to the lambda: the field arguments and `info.fieldName`. -/
structure Event where
  arguments : Args
  fieldName : String

/-- Source: `exports.handler` in `lambda/listDataPoints/index.js`. -/
def handler (table : Option String) (store : Store) (event : Event) :
    Except JSError (Option ListResult) :=
  if event.fieldName = "listDataPoints" then listDataPoints table store event.arguments
  else Except.ok none

/-! ## The authorizer and the `createDataPoint` pipeline -/

/-- The object `{ allow }` returned by the authorizer. -/
structure AuthDecision where
  allow : Bool
  deriving DecidableEq, Repr

/-- Source: `exports.handler` in `lambda/customAuthorizer/index.js`; the first argument is
the environment variable `ALLOW`. -/
def customAuthorizer (allowVar : Option String) (_event : JSVal) : AuthDecision :=
  if allowVar = some "true" then { allow := true } else { allow := false }

/-- What a pipeline step signals to the executor. -/
inductive StepOutcome where
  | continue (result : JSVal) : StepOutcome
  | deny : StepOutcome
  | fail (error : String) : StepOutcome

/-- The outcome of a pipeline. -/
inductive PipelineOutcome where
  | completed (result : JSVal) : PipelineOutcome
  | unauthorized : PipelineOutcome
  | failed (error : String) : PipelineOutcome

/-- A named pipeline step acting on the store of type `σ`. -/
structure Step (σ : Type) where
  name : String
  execute : JSVal → σ → StepOutcome × σ

/-- What a pipeline run leaves behind: the store, the names of the steps that were invoked,
in order, and the outcome. -/
structure Run (σ : Type) where
  store : σ
  invoked : List String
  outcome : PipelineOutcome

/-- Modelled from the spec: the pipeline executor of section 4.5, which is the AppSync
service and not part of the sources.  Steps run strictly in order; the outcome of a step is
inspected before the next step runs; a step that denies ends the run as unauthorized and a
step that fails ends it as failed, and no further step is invoked; when all steps have run,
the result of the last one is the result of the pipeline. -/
def runPipeline {σ : Type} : List (Step σ) → JSVal → σ → JSVal → Run σ
  | [], _, st, last => ⟨st, [], PipelineOutcome.completed last⟩
  | s :: rest, ctx, st, _ =>
    match s.execute ctx st with
    | (StepOutcome.continue r, st1) =>
      let run := runPipeline rest ctx st1 r
      ⟨run.store, s.name :: run.invoked, run.outcome⟩
    | (StepOutcome.deny, st1) => ⟨st1, [s.name], PipelineOutcome.unauthorized⟩
    | (StepOutcome.fail e, st1) => ⟨st1, [s.name], PipelineOutcome.failed e⟩

/-- Source: `pipelineAuthFn` in `lib/appsync-workshop-stack.js`: the function whose data source
is the authorizer lambda and whose response template calls `$util.unauthorized()` when
`$ctx.result.allow` is false and otherwise yields an empty object.  It leaves the store
untouched. -/
def pipelineAuthFn {σ : Type} (allowVar : Option String) : Step σ :=
  { name := "userChecker"
    execute := fun ctx st =>
      if !(customAuthorizer allowVar ctx).allow then (StepOutcome.deny, st)
      else (StepOutcome.continue (JSVal.obj []), st) }

/-- Source: `pipelineCreateDataPointFn` in `lib/appsync-workshop-stack.js`: the function whose
data source is the table.  Its request template is not part of the sources; the write it
performs is the parameter `write`. -/
def pipelineCreateDataPointFn {σ : Type} (write : JSVal → σ → Except String JSVal × σ) :
    Step σ :=
  { name := "createDataPoint"
    execute := fun ctx st =>
      match write ctx st with
      | (Except.ok item, st1) => (StepOutcome.continue item, st1)
      | (Except.error e, st1) => (StepOutcome.fail e, st1) }

/-- Source: the resolver `createDataPointPipeline` in `lib/appsync-workshop-stack.js`, with
`pipelineConfig: [pipelineAuthFn, pipelineCreateDataPointFn]`. -/
def createDataPointPipeline {σ : Type} (allowVar : Option String)
    (write : JSVal → σ → Except String JSVal × σ) : List (Step σ) :=
  [pipelineAuthFn allowVar, pipelineCreateDataPointFn write]

/-- Run the `createDataPoint` mutation on a context and a store. -/
def createDataPoint {σ : Type} (allowVar : Option String)
    (write : JSVal → σ → Except String JSVal × σ) (ctx : JSVal) (st : σ) : Run σ :=
  runPipeline (createDataPointPipeline allowVar write) ctx st (JSVal.obj [])

/-! ## Valid keys -/

/-- A code point that ends a number literal: not a digit, a point or an exponent mark. -/
def endsNumber (c : Nat) : Prop := isDigit c = false ∧ c ≠ 46 ∧ c ≠ 101 ∧ c ≠ 69

/-- A text made of decimal digits only. -/
def AllDigits (l : List Nat) : Prop := ∀ x ∈ l, 48 ≤ x ∧ x ≤ 57

/-- The integer part of a number in the JSON grammar: the digit zero, or a digit from one to
nine followed by digits. -/
def IsJsonInt (l : List Nat) : Prop :=
  l = [48] ∨ ∃ d ds, l = d :: ds ∧ (49 ≤ d ∧ d ≤ 57) ∧ AllDigits ds

/-- The fraction of a number in the JSON grammar: nothing, or a point followed by one or more
digits. -/
def IsJsonFrac (l : List Nat) : Prop :=
  l = [] ∨ ∃ ds, l = 46 :: ds ∧ ds ≠ [] ∧ AllDigits ds

/-- The exponent of a number in the JSON grammar: nothing, or `e` or `E`, an optional sign,
and one or more digits. -/
def IsJsonExp (l : List Nat) : Prop :=
  l = [] ∨ ∃ e sign ds, l = e :: (sign ++ ds) ∧ (e = 101 ∨ e = 69) ∧
    (sign = [] ∨ sign = [43] ∨ sign = [45]) ∧ ds ≠ [] ∧ AllDigits ds

/-- A number literal of the JSON grammar (ECMA-404): an optional minus sign, an integer part,
an optional fraction and an optional exponent.  Every text `Number::toString` prints for a
finite number has this form. -/
def IsJsonNumber (t : List Nat) : Prop :=
  ∃ sign i f e, t = sign ++ i ++ f ++ e ∧ (sign = [] ∨ sign = [45]) ∧
    IsJsonInt i ∧ IsJsonFrac f ∧ IsJsonExp e

/-- A key attribute value: a string, or a number, whose literal is then a number literal of
the JSON grammar. -/
def IsKeyAttr : JSVal → Prop
  | JSVal.str _ => True
  | JSVal.num literal => IsJsonNumber (codes literal)
  | _ => False

/-- A valid last evaluated key: a non-empty object, its property names distinct, whose
attributes are strings and numbers. -/
def ValidKey (k : Props) : Prop :=
  k.length ≠ 0 ∧ (k.map Prod.fst).Nodup ∧ ∀ p ∈ k, IsKeyAttr p.2

/-! ## Sample data -/

/-- A store that answers every query with one item and a last evaluated key. -/
def sampleStore : Store := fun _ =>
  Except.ok
    { Items := JSVal.arr [JSVal.obj [("PK", JSVal.str "u1#d1"), ("SK", JSVal.str "2024-01-01")]]
      LastEvaluatedKey := some [("PK", JSVal.str "u1#d1"), ("SK", JSVal.str "2024-01-01")]
      Count := JSVal.num "1"
      ScannedCount := JSVal.num "1"
      ConsumedCapacity := JSVal.undefined }

/-- A store that answers every query with an empty page and an empty last evaluated key. -/
def emptyKeyStore : Store := fun _ =>
  Except.ok
    { Items := JSVal.arr []
      LastEvaluatedKey := some []
      Count := JSVal.num "0"
      ScannedCount := JSVal.num "0"
      ConsumedCapacity := JSVal.undefined }

/-- A store whose query call always fails. -/
def failingStore : Store := fun _ => Except.error "ProvisionedThroughputExceededException"

/-- The arguments `owner: u1, name: d1` with everything else left out. -/
def sampleArgs : Args :=
  { owner := "u1"
    name := "d1"
    createdAt := none
    limit := JSVal.undefined
    nextToken := none
    sortDirection := JSVal.undefined }

/-- A write that records the context in a list and returns it. -/
def sampleWrite : JSVal → List JSVal → Except String JSVal × List JSVal :=
  fun ctx st => (Except.ok ctx, ctx :: st)

/-! ## Properties of `mapKeyToExpr` and `expr` -/

/-- C1 (as amended): for each of the seven supported keys `mapKeyToExpr` returns the template
written with the name placeholder `#SK`, namely `#SK > :SK`, `#SK = :SK`, `#SK <= :SK`,
`#SK < :SK`, `#SK >= :SK`, `#SK BETWEEN :SK0 AND :SK1` and `begins_with(#SK, :SK)`; and for a
filter with that single key `expr` puts that template in the field `Expr` of its result and
binds, in the field `Names`, the one name placeholder `#SK` to the attribute `SK`. -/
theorem mapKeyToExpr_templates :
    mapKeyToExpr (some "gt") = "#SK > :SK" ∧
    mapKeyToExpr (some "eq") = "#SK = :SK" ∧
    mapKeyToExpr (some "le") = "#SK <= :SK" ∧
    mapKeyToExpr (some "lt") = "#SK < :SK" ∧
    mapKeyToExpr (some "ge") = "#SK >= :SK" ∧
    mapKeyToExpr (some "between") = "#SK BETWEEN :SK0 AND :SK1" ∧
    mapKeyToExpr (some "beginsWith") = "begins_with(#SK, :SK)" ∧
    (∀ v, (expr (some [("gt", v)])).map (fun r => (r.Names, r.Expr)) =
      Except.ok (some [("#SK", JSVal.str "SK")], some "#SK > :SK")) ∧
    (∀ v, (expr (some [("eq", v)])).map (fun r => (r.Names, r.Expr)) =
      Except.ok (some [("#SK", JSVal.str "SK")], some "#SK = :SK")) ∧
    (∀ v, (expr (some [("le", v)])).map (fun r => (r.Names, r.Expr)) =
      Except.ok (some [("#SK", JSVal.str "SK")], some "#SK <= :SK")) ∧
    (∀ v, (expr (some [("lt", v)])).map (fun r => (r.Names, r.Expr)) =
      Except.ok (some [("#SK", JSVal.str "SK")], some "#SK < :SK")) ∧
    (∀ v, (expr (some [("ge", v)])).map (fun r => (r.Names, r.Expr)) =
      Except.ok (some [("#SK", JSVal.str "SK")], some "#SK >= :SK")) ∧
    (∀ a b, (expr (some [("between", JSVal.arr [a, b])])).map (fun r => (r.Names, r.Expr)) =
      Except.ok (some [("#SK", JSVal.str "SK")], some "#SK BETWEEN :SK0 AND :SK1")) ∧
    (∀ v, (expr (some [("beginsWith", v)])).map (fun r => (r.Names, r.Expr)) =
      Except.ok (some [("#SK", JSVal.str "SK")], some "begins_with(#SK, :SK)")) := by
  refine ⟨rfl, rfl, rfl, rfl, rfl, rfl, rfl, ?_, ?_, ?_, ?_, ?_, ?_, ?_⟩ <;> intros <;> rfl

/-- C1 (counterexample): for the key `gt` the template is `#SK > :SK`, which is not the
string `SK > :SK` of the specification. -/
theorem mapKeyToExpr_gt_not_spec :
    mapKeyToExpr (some "gt") = "#SK > :SK" ∧ mapKeyToExpr (some "gt") ≠ "SK > :SK" := by
  decide

/-- C2: for a filter `between: [a, b]`, `expr` binds exactly the two value placeholders
`:SK0` to `a` and `:SK1` to `b`, in the given order, whatever `a` and `b` are; for a filter
whose single key is one of the other six operators, with operand `v`, it binds exactly the one
value placeholder `:SK` to `v`. -/
theorem expr_values :
    (∀ a b, (expr (some [("between", JSVal.arr [a, b])])).map RangeExpr.Values =
      Except.ok (some [(":SK0", a), (":SK1", b)])) ∧
    (∀ v, (expr (some [("gt", v)])).map RangeExpr.Values = Except.ok (some [(":SK", v)])) ∧
    (∀ v, (expr (some [("eq", v)])).map RangeExpr.Values = Except.ok (some [(":SK", v)])) ∧
    (∀ v, (expr (some [("le", v)])).map RangeExpr.Values = Except.ok (some [(":SK", v)])) ∧
    (∀ v, (expr (some [("lt", v)])).map RangeExpr.Values = Except.ok (some [(":SK", v)])) ∧
    (∀ v, (expr (some [("ge", v)])).map RangeExpr.Values = Except.ok (some [(":SK", v)])) ∧
    (∀ v, (expr (some [("beginsWith", v)])).map RangeExpr.Values =
      Except.ok (some [(":SK", v)])) := by
  refine ⟨?_, ?_, ?_, ?_, ?_, ?_, ?_⟩ <;> intros <;> rfl

/-- C5 (the code at the failing input): for the filter with the single unrecognised key `foo`
and operand `x`, `expr` returns an empty template but still binds the name placeholder `#SK`
and the value placeholder `:SK`, so the query issued carries both, unlike the query issued
without a filter. -/
theorem expr_unknown_key_binds_placeholders :
    expr (some [("foo", JSVal.str "x")]) =
      Except.ok ⟨some [("#SK", JSVal.str "SK")], some "", some [(":SK", JSVal.str "x")]⟩ ∧
    expr none = Except.ok ⟨none, none, none⟩ ∧
    (issuedQuery none { sampleArgs with createdAt := some [("foo", JSVal.str "x")] }).map
        QueryParams.ExpressionAttributeNames =
      Except.ok [("#PK", JSVal.str "PK"), ("#SK", JSVal.str "SK")] ∧
    (issuedQuery none { sampleArgs with createdAt := some [("foo", JSVal.str "x")] }).map
        QueryParams.ExpressionAttributeValues =
      Except.ok [(":PK", JSVal.str "u1#d1"), (":SK", JSVal.str "x")] ∧
    (issuedQuery none sampleArgs).map QueryParams.ExpressionAttributeNames =
      Except.ok [("#PK", JSVal.str "PK")] ∧
    (issuedQuery none sampleArgs).map QueryParams.ExpressionAttributeValues =
      Except.ok [(":PK", JSVal.str "u1#d1")] := by
  refine ⟨rfl, rfl, rfl, rfl, rfl, rfl⟩

/-! ## Properties of the query `listDataPoints` issues -/

/-- C6: for every owner and name, with no filter supplied `expr` returns the empty object and
the query issued is the whole-partition query: the key condition is exactly `#PK = :PK`, the
only name placeholder is `#PK` for `PK`, and the only value placeholder is `:PK` for owner,
hash sign, name (`u1#d1` for owner `u1` and name `d1`). -/
theorem issuedQuery_no_filter (table : Option String) (owner name : String)
    (limit sortDirection : JSVal) (nextToken : Option String) :
    expr none = Except.ok RangeExpr.empty ∧
    issuedQuery table ⟨owner, name, none, limit, nextToken, sortDirection⟩ =
      Except.ok (queryParams table ⟨owner, name, none, limit, nextToken, sortDirection⟩
        RangeExpr.empty) ∧
    (queryParams table ⟨owner, name, none, limit, nextToken, sortDirection⟩
      RangeExpr.empty).KeyConditionExpression = "#PK = :PK" ∧
    (queryParams table ⟨owner, name, none, limit, nextToken, sortDirection⟩
      RangeExpr.empty).ExpressionAttributeNames = [("#PK", JSVal.str "PK")] ∧
    (queryParams table ⟨owner, name, none, limit, nextToken, sortDirection⟩
      RangeExpr.empty).ExpressionAttributeValues = [(":PK", JSVal.str (owner ++ "#" ++ name))] ∧
    partitionKey "u1" "d1" = "u1#d1" := by
  refine ⟨rfl, rfl, ?_, rfl, rfl, by decide⟩
  show "#PK = :PK" ++ "" = "#PK = :PK"
  decide

/-- Two texts that agree after a separator which neither head contains have equal heads and
equal tails. -/
theorem append_sep_inj {α : Type} (x : α) :
    ∀ (l1 l2 r1 r2 : List α), x ∉ l1 → x ∉ l2 → l1 ++ x :: r1 = l2 ++ x :: r2 →
      l1 = l2 ∧ r1 = r2
  | [], [], _, _, _, _, h => by
    simp only [List.nil_append, List.cons.injEq, true_and] at h
    exact ⟨rfl, h⟩
  | [], b :: l2, _, _, _, h2, h => by
    simp only [List.nil_append, List.cons_append, List.cons.injEq] at h
    exact absurd (List.mem_cons.mpr (Or.inl h.1)) h2
  | a :: l1, [], _, _, h1, _, h => by
    simp only [List.nil_append, List.cons_append, List.cons.injEq] at h
    exact absurd (List.mem_cons.mpr (Or.inl h.1.symm)) h1
  | a :: l1, b :: l2, r1, r2, h1, h2, h => by
    simp only [List.cons_append, List.cons.injEq] at h
    have ih := append_sep_inj x l1 l2 r1 r2
      (fun m => h1 (List.mem_cons_of_mem _ m)) (fun m => h2 (List.mem_cons_of_mem _ m)) h.2
    exact ⟨by rw [h.1, ih.1], ih.2⟩

/-- C10: the partition key determines owner and name when owners contain no hash sign: for
owners without the character `#`, equal partition keys come from equal owners and equal
names. -/
theorem partitionKey_injective (owner1 name1 owner2 name2 : String)
    (h1 : Char.ofNat 35 ∉ owner1.data) (h2 : Char.ofNat 35 ∉ owner2.data)
    (h : partitionKey owner1 name1 = partitionKey owner2 name2) :
    owner1 = owner2 ∧ name1 = name2 := by
  have hd : (partitionKey owner1 name1).data = (partitionKey owner2 name2).data := by rw [h]
  have e : ∀ o n : String, (partitionKey o n).data = o.data ++ Char.ofNat 35 :: n.data := by
    intro o n
    simp only [partitionKey, String.data_append, List.append_assoc]
    rfl
  rw [e, e] at hd
  obtain ⟨ho, hn⟩ := append_sep_inj _ _ _ _ _ h1 h2 hd
  exact ⟨String.ext ho, String.ext hn⟩

/-- C10 (witness): the owner `u1` contains no hash sign, and the equal keys of `(u1, d1)` and
`(u1, d1)` come from equal owners and names. -/
theorem partitionKey_injective_witness :
    Char.ofNat 35 ∉ ("u1" : String).data ∧
    partitionKey "u1" "d1" = partitionKey "u1" "d1" ∧
    (("u1" : String) = "u1" ∧ ("d1" : String) = "d1") :=
  ⟨by decide, rfl, partitionKey_injective "u1" "d1" "u1" "d1" (by decide) (by decide) rfl⟩

/-- An owner that contains a hash sign can share its partition with another pair: the pairs
`(a#b, c)` and `(a, b#c)` have the same partition key. -/
theorem partitionKey_collision :
    partitionKey "a#b" "c" = partitionKey "a" "b#c" ∧ ("a#b" : String) ≠ "a" := by
  decide

/-! ## Properties of the result of `listDataPoints` -/

/-- C7 (as amended): when the query is issued and the store answers, `listDataPoints` returns
the page of items of the store as `items`, the remaining fields of the answer unchanged, and a
`nextToken` that is `null` when the answer has no last evaluated key and otherwise, also for an
empty key object, the base64 text of the JSON serialisation of that key. -/
theorem listDataPoints_success (table : Option String) (store : Store) (w : Args)
    (params : QueryParams) (results : QueryOutput)
    (hq : issuedQuery table w = Except.ok params) (hs : store params = Except.ok results) :
    listDataPoints table store w = Except.ok (some
      { items := results.Items
        nextToken :=
          match results.LastEvaluatedKey with
          | none => JSVal.null
          | some k => JSVal.str (encodeKey k)
        Count := results.Count
        ScannedCount := results.ScannedCount
        ConsumedCapacity := results.ConsumedCapacity }) := by
  unfold listDataPoints
  rw [hq]
  simp only [hs]
  cases hk : results.LastEvaluatedKey with
  | none => simp [nextTokenOf]
  | some k => simp [nextTokenOf, serialize, encodeKey, keyText]

/-- C7 (witness): the sample store answers the sample request with one item and a key, and
the result carries that item and the token of that key. -/
theorem listDataPoints_success_witness :
    listDataPoints none sampleStore sampleArgs = Except.ok (some
      { items :=
          JSVal.arr [JSVal.obj [("PK", JSVal.str "u1#d1"), ("SK", JSVal.str "2024-01-01")]]
        nextToken :=
          JSVal.str (encodeKey [("PK", JSVal.str "u1#d1"), ("SK", JSVal.str "2024-01-01")])
        Count := JSVal.num "1"
        ScannedCount := JSVal.num "1"
        ConsumedCapacity := JSVal.undefined }) :=
  listDataPoints_success none sampleStore sampleArgs
    (queryParams none sampleArgs RangeExpr.empty) _ rfl rfl

/-- C7 (counterexample): when the store answers with an empty key object, the `nextToken`
returned is not `null`: it is `e30=`, the token of the empty object. -/
theorem listDataPoints_empty_key_token :
    (listDataPoints none emptyKeyStore sampleArgs).map (Option.map ListResult.nextToken) =
      Except.ok (some (JSVal.str "e30=")) ∧
    (listDataPoints none emptyKeyStore sampleArgs).map (Option.map ListResult.nextToken) ≠
      Except.ok (some JSVal.null) := by
  have h : (listDataPoints none emptyKeyStore sampleArgs).map
      (Option.map ListResult.nextToken) = Except.ok (some (JSVal.str "e30=")) := by rfl
  refine ⟨h, ?_⟩
  rw [h]
  intro hc
  cases hc

/-- C8: when the query is issued and the store's query call fails, `listDataPoints` returns
`null` and raises nothing, and the handler returns `null` for the field `listDataPoints`. -/
theorem listDataPoints_store_failure (table : Option String) (store : Store) (w : Args)
    (params : QueryParams) (e : String)
    (hq : issuedQuery table w = Except.ok params) (hs : store params = Except.error e) :
    listDataPoints table store w = Except.ok none ∧
    handler table store ⟨w, "listDataPoints"⟩ = Except.ok none := by
  have h : listDataPoints table store w = Except.ok none := by
    unfold listDataPoints
    rw [hq]
    simp only [hs]
  exact ⟨h, by simp [handler, h]⟩

/-- C8 (witness): the failing store makes the sample request return `null`. -/
theorem listDataPoints_store_failure_witness :
    listDataPoints none failingStore sampleArgs = Except.ok none ∧
    handler none failingStore ⟨sampleArgs, "listDataPoints"⟩ = Except.ok none :=
  listDataPoints_store_failure none failingStore sampleArgs
    (queryParams none sampleArgs RangeExpr.empty) _ rfl rfl

/-! ## Properties of the `createDataPoint` pipeline -/

/-- The authorizer denies by default: it returns `allow: false` exactly when `ALLOW` is not the
string `true`. -/
theorem customAuthorizer_deny_iff (allowVar : Option String) (ctx : JSVal) :
    (customAuthorizer allowVar ctx).allow = false ↔ allowVar ≠ some "true" := by
  by_cases h : allowVar = some "true"
  · simp [customAuthorizer, h]
  · simp [customAuthorizer, h]

/-- C9: whenever `ALLOW` is not exactly the string `true`, the authorizer returns
`allow: false`, for every context; and the authorizer returns `allow: false` in no other case.
Then the `createDataPoint` pipeline invokes the authorization step only, never the mutation
step, leaves the store as it was, and ends as unauthorized, for every context, store and
write. -/
theorem createDataPoint_denied {σ : Type} (allowVar : Option String)
    (write : JSVal → σ → Except String JSVal × σ) (ctx : JSVal) (st : σ)
    (h : allowVar ≠ some "true") :
    customAuthorizer allowVar ctx = { allow := false } ∧
    (∀ (a : Option String) (c : JSVal),
      (customAuthorizer a c).allow = false ↔ a ≠ some "true") ∧
    (createDataPoint allowVar write ctx st).outcome = PipelineOutcome.unauthorized ∧
    (createDataPoint allowVar write ctx st).invoked = ["userChecker"] ∧
    "createDataPoint" ∉ (createDataPoint allowVar write ctx st).invoked ∧
    (createDataPoint allowVar write ctx st).store = st := by
  have hd : customAuthorizer allowVar ctx = { allow := false } := by
    simp [customAuthorizer, h]
  have hrun : createDataPoint allowVar write ctx st =
      ⟨st, ["userChecker"], PipelineOutcome.unauthorized⟩ := by
    simp [createDataPoint, createDataPointPipeline, runPipeline, pipelineAuthFn, hd]
  rw [hrun]
  exact ⟨hd, customAuthorizer_deny_iff, rfl, rfl, by simp, rfl⟩

/-- C9 (witness): with `ALLOW` unset the authorizer denies, and the pipeline on an empty store
is denied and writes nothing. -/
theorem createDataPoint_denied_witness :
    customAuthorizer none JSVal.null = { allow := false } ∧
    (∀ (a : Option String) (c : JSVal),
      (customAuthorizer a c).allow = false ↔ a ≠ some "true") ∧
    (createDataPoint none sampleWrite JSVal.null []).outcome = PipelineOutcome.unauthorized ∧
    (createDataPoint none sampleWrite JSVal.null []).invoked = ["userChecker"] ∧
    "createDataPoint" ∉ (createDataPoint none sampleWrite JSVal.null []).invoked ∧
    (createDataPoint none sampleWrite JSVal.null []).store = [] :=
  createDataPoint_denied none sampleWrite JSVal.null [] (by decide)

/-! ## The platform codecs invert each other -/

theorem b64Val_b64Char (n : Nat) (h : n < 64) : b64Val (b64Char n) = some n := by
  unfold b64Char b64Val
  split_ifs <;> first | omega | (congr 1; omega)

theorem b64Char_ne_pad (n : Nat) (h : n < 64) : b64Char n ≠ 61 := by
  unfold b64Char
  split_ifs <;> omega

theorem b64Sextets_cons_char (n : Nat) (h : n < 64) (cs : List Nat) :
    b64Sextets (b64Char n :: cs) = n :: b64Sextets cs := by
  have hm : b64Char n % 256 = b64Char n := by
    unfold b64Char
    split_ifs <;> omega
  simp [b64Sextets, hm, b64Char_ne_pad n h, b64Val_b64Char n h]

theorem b64Sextets_pad (cs : List Nat) : b64Sextets (61 :: cs) = [] := by
  simp [b64Sextets]

theorem base64Decode_encode : ∀ bs : List Nat, (∀ b ∈ bs, b < 256) →
    base64Decode (base64Encode bs) = bs
  | [], _ => by rfl
  | [a], h => by
    have ha : a < 256 := h a (by simp)
    simp only [base64Decode, base64Encode]
    rw [b64Sextets_cons_char _ (by omega), b64Sextets_cons_char _ (by omega)]
    simp only [b64Sextets_pad, b64Bytes]
    congr 1
    omega
  | [a, b], h => by
    have ha : a < 256 := h a (by simp)
    have hb : b < 256 := h b (by simp)
    simp only [base64Decode, base64Encode]
    rw [b64Sextets_cons_char _ (by omega), b64Sextets_cons_char _ (by omega),
      b64Sextets_cons_char _ (by omega)]
    simp only [b64Sextets_pad, b64Bytes]
    congr 1
    · omega
    · congr 1
      omega
  | a :: b :: c :: rest, h => by
    have ha : a < 256 := h a (by simp)
    have hb : b < 256 := h b (by simp)
    have hc : c < 256 := h c (by simp)
    have ih := base64Decode_encode rest (fun x hx => h x (by simp [hx]))
    simp only [base64Decode, base64Encode] at ih ⊢
    rw [b64Sextets_cons_char _ (by omega), b64Sextets_cons_char _ (by omega),
      b64Sextets_cons_char _ (by omega), b64Sextets_cons_char _ (by omega)]
    simp only [b64Bytes, ih]
    congr 1
    · omega
    · congr 1
      · omega
      · congr 1
        omega

theorem toNat_ofNat_valid (n : Nat) (h : n.isValidChar) : (Char.ofNat n).toNat = n := by
  simp only [Char.ofNat, h, dite_true]
  rfl

theorem char_scalar (c : Char) : c.toNat.isValidChar := c.valid

theorem codes_ofCodes (l : List Nat) (h : ∀ x ∈ l, x.isValidChar) : codes (ofCodes l) = l := by
  induction l with
  | nil => rfl
  | cons a t ih =>
    have ht := ih (fun x hx => h x (List.mem_cons_of_mem _ hx))
    simp only [codes, ofCodes, List.map_cons, List.cons.injEq] at ht ⊢
    exact ⟨toNat_ofNat_valid a (h a (List.mem_cons_self _ _)), ht⟩

theorem ofCodes_codes (s : String) : ofCodes (codes s) = s := by
  cases s with
  | mk d =>
    simp only [codes, ofCodes, List.map_map]
    congr 1
    induction d with
    | nil => rfl
    | cons a t ih => simp [ih]

theorem utf8Run_init_cons (b : Nat) (rest : List Nat) :
    utf8Run Utf8State.init (b :: rest) = (utf8Start b).1 ++ utf8Run (utf8Start b).2 rest := by
  simp [utf8Run, Utf8State.init]

theorem utf8Run_last (cp lo hi b : Nat) (rest : List Nat) (h : lo ≤ b ∧ b ≤ hi) :
    utf8Run ⟨1, cp, lo, hi⟩ (b :: rest) = (cp * 64 + (b - 0x80)) :: utf8Run Utf8State.init rest := by
  simp [utf8Run, h]

theorem utf8Run_more (k cp lo hi b : Nat) (rest : List Nat) (h : lo ≤ b ∧ b ≤ hi) :
    utf8Run ⟨k + 2, cp, lo, hi⟩ (b :: rest) =
      utf8Run ⟨k + 1, cp * 64 + (b - 0x80), 0x80, 0xBF⟩ rest := by
  simp [utf8Run, h]

theorem utf8Start_ascii (b : Nat) (h : b < 0x80) : utf8Start b = ([b], Utf8State.init) := by
  simp [utf8Start, h]

theorem utf8Start_two (b : Nat) (h : 0xC2 ≤ b ∧ b ≤ 0xDF) :
    utf8Start b = ([], ⟨1, b - 0xC0, 0x80, 0xBF⟩) := by
  have h1 : ¬ b < 0x80 := by omega
  simp [utf8Start, h1, h]

theorem utf8Start_three (b : Nat) (h : 0xE0 ≤ b ∧ b ≤ 0xEF) :
    utf8Start b =
      ([], ⟨2, b - 0xE0, if b = 0xE0 then 0xA0 else 0x80, if b = 0xED then 0x9F else 0xBF⟩) := by
  have h1 : ¬ b < 0x80 := by omega
  have h2 : ¬ (0xC2 ≤ b ∧ b ≤ 0xDF) := by omega
  simp only [utf8Start, h1, h2, h, if_false, if_true, and_self]

theorem utf8Start_four (b : Nat) (h : 0xF0 ≤ b ∧ b ≤ 0xF4) :
    utf8Start b =
      ([], ⟨3, b - 0xF0, if b = 0xF0 then 0x90 else 0x80, if b = 0xF4 then 0x8F else 0xBF⟩) := by
  have h1 : ¬ b < 0x80 := by omega
  have h2 : ¬ (0xC2 ≤ b ∧ b ≤ 0xDF) := by omega
  have h3 : ¬ (0xE0 ≤ b ∧ b ≤ 0xEF) := by omega
  simp only [utf8Start, h1, h2, h3, h, if_false, if_true, and_self]

theorem utf8Run_encodeChar (n : Nat) (h : n.isValidChar) (rest : List Nat) :
    utf8Run Utf8State.init (utf8EncodeChar n ++ rest) = n :: utf8Run Utf8State.init rest := by
  have hv : n < 0xD800 ∨ (0xDFFF < n ∧ n < 0x110000) := h
  unfold utf8EncodeChar
  split_ifs with h1 h2 h3
  · rw [List.singleton_append, utf8Run_init_cons, utf8Start_ascii n h1]
    rfl
  · simp only [List.cons_append, List.nil_append]
    rw [utf8Run_init_cons, utf8Start_two _ (by omega)]
    simp only [List.nil_append]
    rw [utf8Run_last _ _ _ _ _ (by omega)]
    simp only [List.cons.injEq, and_true]
    omega
  · simp only [List.cons_append, List.nil_append]
    rw [utf8Run_init_cons, utf8Start_three _ (by omega)]
    simp only [List.nil_append]
    rw [utf8Run_more 0 _ _ _ _ _ (by split_ifs <;> omega), utf8Run_last _ _ _ _ _ (by omega)]
    simp only [List.cons.injEq, and_true]
    omega
  · simp only [List.cons_append, List.nil_append]
    rw [utf8Run_init_cons, utf8Start_four _ (by omega)]
    simp only [List.nil_append]
    rw [utf8Run_more 1 _ _ _ _ _ (by split_ifs <;> omega), utf8Run_more 0 _ _ _ _ _ (by omega),
      utf8Run_last _ _ _ _ _ (by omega)]
    simp only [List.cons.injEq, and_true]
    omega

theorem utf8Decode_encode (l : List Nat) (h : ∀ x ∈ l, x.isValidChar) :
    utf8Decode (utf8Encode l) = l := by
  unfold utf8Decode
  induction l with
  | nil => rfl
  | cons a t ih =>
    simp only [utf8Encode]
    rw [utf8Run_encodeChar a (h a (List.mem_cons_self _ _)),
      ih (fun x hx => h x (List.mem_cons_of_mem _ hx))]

theorem utf8EncodeChar_lt (n : Nat) (h : n.isValidChar) : ∀ b ∈ utf8EncodeChar n, b < 256 := by
  have hv : n < 0xD800 ∨ (0xDFFF < n ∧ n < 0x110000) := h
  intro b hb
  unfold utf8EncodeChar at hb
  split_ifs at hb <;> simp only [List.mem_cons, List.mem_singleton, List.not_mem_nil, or_false] at hb <;> omega

theorem utf8Encode_lt (l : List Nat) (h : ∀ x ∈ l, x.isValidChar) :
    ∀ b ∈ utf8Encode l, b < 256 := by
  induction l with
  | nil => intro b hb; cases hb
  | cons a t ih =>
    intro b hb
    simp only [utf8Encode, List.mem_append] at hb
    rcases hb with hb | hb
    · exact utf8EncodeChar_lt a (h a (List.mem_cons_self _ _)) b hb
    · exact ih (fun x hx => h x (List.mem_cons_of_mem _ hx)) b hb

/-! ## Parsing what `JSON.stringify` wrote -/

theorem hexVal_hexDigit (d : Nat) (h : d < 16) : hexVal (hexDigit d) = some d := by
  unfold hexDigit hexVal
  split_ifs <;> first | omega | (simp only [Option.some.injEq]; omega)

theorem hex4_escape (u : Nat) (h : u < 65536) :
    hex4 (hexDigit (u / 4096)) (hexDigit (u / 256 % 16)) (hexDigit (u / 16 % 16))
      (hexDigit (u % 16)) = some u := by
  unfold hex4
  rw [hexVal_hexDigit _ (by omega), hexVal_hexDigit _ (by omega), hexVal_hexDigit _ (by omega),
    hexVal_hexDigit _ (by omega)]
  simp only [Option.some.injEq]
  omega

theorem parseChars_escape (e c : Nat) (tail : List Nat)
    (h : (e = 98 ∧ c = 8) ∨ (e = 116 ∧ c = 9) ∨ (e = 110 ∧ c = 10) ∨ (e = 102 ∧ c = 12) ∨
      (e = 114 ∧ c = 13) ∨ (e = 34 ∧ c = 34) ∨ (e = 92 ∧ c = 92)) :
    parseChars (92 :: e :: tail) = consChar c (parseChars tail) := by
  rcases h with h | h | h | h | h | h | h <;> obtain ⟨rfl, rfl⟩ := h <;> rw [parseChars.eq_def] <;> simp

theorem parseChars_unicode (u : Nat) (h : u < 65536) (tail : List Nat) :
    parseChars (unicodeEscape u ++ tail) = consChar u (parseChars tail) := by
  simp only [unicodeEscape, List.cons_append, List.nil_append]
  rw [parseChars.eq_def]
  simp [hex4_escape u h]

theorem parseChars_plain (c : Nat) (h1 : c ≠ 34) (h2 : c ≠ 92) (h3 : ¬ c < 32) (tail : List Nat) :
    parseChars (c :: tail) = consChar c (parseChars tail) := by
  rw [parseChars.eq_def]
  simp [h1, h2, h3]

theorem parseChars_quoteChar (c : Nat) (h : c.isValidChar) (tail : List Nat) :
    parseChars (quoteChar c ++ tail) = consChar c (parseChars tail) := by
  have hv : c < 0xD800 ∨ (0xDFFF < c ∧ c < 0x110000) := h
  unfold quoteChar
  split_ifs with h1 h2 h3 h4 h5 h6 h7 h8
  · exact parseChars_escape 98 c tail (by omega)
  · exact parseChars_escape 116 c tail (by omega)
  · exact parseChars_escape 110 c tail (by omega)
  · exact parseChars_escape 102 c tail (by omega)
  · exact parseChars_escape 114 c tail (by omega)
  · exact parseChars_escape 34 c tail (by omega)
  · exact parseChars_escape 92 c tail (by omega)
  · exact parseChars_unicode c (by omega) tail
  · exact parseChars_plain c h6 h7 (by omega) tail

theorem parseChars_quoteChars (cs : List Nat) (h : ∀ c ∈ cs, c.isValidChar) (rest : List Nat) :
    parseChars (quoteChars cs ++ 34 :: rest) = some (cs, rest) := by
  induction cs with
  | nil =>
    rw [parseChars.eq_def]
    simp [quoteChars]
  | cons a t ih =>
    simp only [quoteChars, List.append_assoc]
    rw [parseChars_quoteChar a (h a (List.mem_cons_self _ _)),
      ih (fun x hx => h x (List.mem_cons_of_mem _ hx))]
    rfl

theorem joinSurrogates_scalar : ∀ l : List Nat, (∀ c ∈ l, c.isValidChar) → joinSurrogates l = l
  | [], _ => rfl
  | [u], h => by
    have hv : u < 0xD800 ∨ (0xDFFF < u ∧ u < 0x110000) := h u (by simp)
    have h1 : ¬ (0xD800 ≤ u ∧ u ≤ 0xDFFF) := by omega
    simp only [joinSurrogates, h1, if_false]
  | u :: w :: rest, h => by
    have hv : u < 0xD800 ∨ (0xDFFF < u ∧ u < 0x110000) := h u (by simp)
    have h1 : ¬ (0xD800 ≤ u ∧ u ≤ 0xDFFF) := by omega
    have h2 : ¬ (0xD800 ≤ u ∧ u ≤ 0xDBFF ∧ 0xDC00 ≤ w ∧ w ≤ 0xDFFF) := by omega
    have ih := joinSurrogates_scalar (w :: rest) (fun x hx => h x (List.mem_cons_of_mem _ hx))
    simp only [joinSurrogates, h1, h2, if_false, ih]

theorem codes_scalar (s : String) : ∀ c ∈ codes s, c.isValidChar := by
  intro c hc
  simp only [codes, List.mem_map] at hc
  obtain ⟨ch, _, rfl⟩ := hc
  exact ch.valid

theorem takeDigits_append (c : Nat) (rest : List Nat) (hc : isDigit c = false) :
    ∀ t : List Nat, takeDigits (t ++ c :: rest) = ((takeDigits t).1, (takeDigits t).2 ++ c :: rest)
  | [] => by simp [takeDigits, hc]
  | d :: t => by
    have ih := takeDigits_append c rest hc t
    by_cases hd : isDigit d = true
    · simp [takeDigits, hd, ih]
    · simp [takeDigits, hd]

theorem scanInt_append (c : Nat) (rest : List Nat) (hc : endsNumber c) (t u v : List Nat)
    (h : scanInt t = some (u, v)) : scanInt (t ++ c :: rest) = some (u, v ++ c :: rest) := by
  cases t with
  | nil => simp [scanInt] at h
  | cons d t =>
    simp only [scanInt, List.cons_append] at h ⊢
    rw [takeDigits_append c rest hc.1]
    by_cases h1 : d = 48
    · simp only [h1, if_true, Option.some.injEq, Prod.mk.injEq] at h ⊢
      exact ⟨h.1, by rw [h.2]⟩
    · by_cases h2 : 49 ≤ d ∧ d ≤ 57
      · simp only [h1, h2, if_true, if_false, and_self, Option.some.injEq, Prod.mk.injEq] at h ⊢
        exact ⟨h.1, by rw [h.2]⟩
      · simp only [h1, h2, if_false] at h
        cases h

theorem scanFrac_append (c : Nat) (rest : List Nat) (hc : endsNumber c) (t u v : List Nat)
    (h : scanFrac t = some (u, v)) : scanFrac (t ++ c :: rest) = some (u, v ++ c :: rest) := by
  cases t with
  | nil =>
    simp only [scanFrac, Option.some.injEq, Prod.mk.injEq] at h
    simp [scanFrac, hc.2.1, ← h.1, ← h.2]
  | cons d t =>
    simp only [scanFrac, List.cons_append] at h ⊢
    rw [takeDigits_append c rest hc.1]
    by_cases h1 : d = 46
    · by_cases h2 : (takeDigits t).1 = []
      · simp only [h1, h2, if_true] at h
        cases h
      · simp only [h1, h2, if_true, if_false, Option.some.injEq, Prod.mk.injEq] at h ⊢
        exact ⟨h.1, by rw [h.2]⟩
    · simp only [h1, if_false, Option.some.injEq, Prod.mk.injEq] at h ⊢
      exact ⟨h.1, by rw [← h.2, List.cons_append]⟩

theorem scanExpDigits_append (c : Nat) (rest : List Nat) (hc : endsNumber c) (t u v : List Nat)
    (h : scanExpDigits t = some (u, v)) :
    scanExpDigits (t ++ c :: rest) = some (u, v ++ c :: rest) := by
  simp only [scanExpDigits] at h ⊢
  rw [takeDigits_append c rest hc.1]
  by_cases h1 : (takeDigits t).1 = []
  · simp only [h1, if_true] at h
    cases h
  · simp only [h1, if_false, Option.some.injEq, Prod.mk.injEq] at h ⊢
    exact ⟨h.1, by rw [h.2]⟩

theorem scanExp_append (c : Nat) (rest : List Nat) (hc : endsNumber c) (t u v : List Nat)
    (h : scanExp t = some (u, v)) : scanExp (t ++ c :: rest) = some (u, v ++ c :: rest) := by
  cases t with
  | nil =>
    simp only [scanExp, Option.some.injEq, Prod.mk.injEq] at h
    have h3 : ¬ (c = 101 ∨ c = 69) := fun hcc => hcc.elim hc.2.2.1 hc.2.2.2
    simp [scanExp, h3, ← h.1, ← h.2]
  | cons d t =>
    by_cases hd : d = 101 ∨ d = 69
    · cases t with
      | nil => simp [scanExp, hd] at h
      | cons x ds =>
        simp only [scanExp, hd, if_true, List.cons_append] at h ⊢
        by_cases hx : x = 43 ∨ x = 45
        · simp only [hx, if_true] at h ⊢
          cases hs : scanExpDigits ds with
          | none => simp [hs] at h
          | some p =>
            obtain ⟨a, b⟩ := p
            rw [hs] at h
            rw [scanExpDigits_append c rest hc ds a b hs]
            simp only [Option.some.injEq, Prod.mk.injEq] at h ⊢
            exact ⟨h.1, by rw [h.2]⟩
        · simp only [hx, if_false] at h ⊢
          cases hs : scanExpDigits (x :: ds) with
          | none => simp [hs] at h
          | some p =>
            obtain ⟨a, b⟩ := p
            rw [hs] at h
            have := scanExpDigits_append c rest hc (x :: ds) a b hs
            rw [List.cons_append] at this
            rw [this]
            simp only [Option.some.injEq, Prod.mk.injEq] at h ⊢
            exact ⟨h.1, by rw [h.2]⟩
    · simp only [scanExp, hd, if_false, List.cons_append, Option.some.injEq, Prod.mk.injEq] at h ⊢
      exact ⟨h.1, by rw [← h.2, List.cons_append]⟩

theorem scanUnsigned_append (c : Nat) (rest : List Nat) (hc : endsNumber c) (t u v : List Nat)
    (h : scanUnsigned t = some (u, v)) :
    scanUnsigned (t ++ c :: rest) = some (u, v ++ c :: rest) := by
  simp only [scanUnsigned] at h ⊢
  cases h1 : scanInt t with
  | none => simp [h1] at h
  | some p1 =>
    obtain ⟨i, r1⟩ := p1
    rw [h1] at h
    rw [scanInt_append c rest hc t i r1 h1]
    simp only at h ⊢
    cases h2 : scanFrac r1 with
    | none => simp [h2] at h
    | some p2 =>
      obtain ⟨f, r2⟩ := p2
      rw [h2] at h
      rw [scanFrac_append c rest hc r1 f r2 h2]
      simp only at h ⊢
      cases h3 : scanExp r2 with
      | none => simp [h3] at h
      | some p3 =>
        obtain ⟨e, r3⟩ := p3
        rw [h3] at h
        rw [scanExp_append c rest hc r2 e r3 h3]
        simp only [Option.some.injEq, Prod.mk.injEq] at h ⊢
        exact ⟨h.1, by rw [h.2]⟩

theorem scanNumber_append (c : Nat) (rest : List Nat) (hc : endsNumber c) (t u v : List Nat)
    (h : scanNumber t = some (u, v)) :
    scanNumber (t ++ c :: rest) = some (u, v ++ c :: rest) := by
  cases t with
  | nil => simp [scanNumber] at h
  | cons d t =>
    simp only [scanNumber, List.cons_append] at h ⊢
    split_ifs at h ⊢ with h1
    · cases hs : scanUnsigned t with
      | none => simp [hs] at h
      | some p =>
        obtain ⟨a, b⟩ := p
        rw [hs] at h
        rw [scanUnsigned_append c rest hc t a b hs]
        simp only [Option.some.injEq, Prod.mk.injEq] at h ⊢
        exact ⟨h.1, by rw [h.2]⟩
    · have := scanUnsigned_append c rest hc (d :: t) u v h
      rw [List.cons_append] at this
      exact this

/-- A text on which the number scanner succeeds starts with a minus sign or a digit. -/
theorem scanNumber_head (t u v : List Nat) (h : scanNumber t = some (u, v)) :
    ∃ d t1, t = d :: t1 ∧ (d = 45 ∨ (48 ≤ d ∧ d ≤ 57)) := by
  cases t with
  | nil => simp [scanNumber] at h
  | cons d t =>
    refine ⟨d, t, rfl, ?_⟩
    by_cases h1 : d = 45
    · exact Or.inl h1
    · right
      simp only [scanNumber, h1, if_false, scanUnsigned, scanInt] at h
      by_cases h2 : d = 48
      · omega
      · by_cases h3 : 49 ≤ d ∧ d ≤ 57
        · omega
        · simp [h2, h3] at h

theorem skipWs_cons (c : Nat) (cs : List Nat) (h : ¬ (c = 32 ∨ c = 9 ∨ c = 10 ∨ c = 13)) :
    skipWs (c :: cs) = c :: cs := by
  simp only [skipWs, h, if_false]

theorem skipWs_quote (cs : List Nat) : skipWs (34 :: cs) = 34 :: cs := skipWs_cons 34 cs (by decide)

theorem skipWs_colon (cs : List Nat) : skipWs (58 :: cs) = 58 :: cs := skipWs_cons 58 cs (by decide)

theorem skipWs_comma (cs : List Nat) : skipWs (44 :: cs) = 44 :: cs := skipWs_cons 44 cs (by decide)

theorem skipWs_close (cs : List Nat) : skipWs (125 :: cs) = 125 :: cs :=
  skipWs_cons 125 cs (by decide)

theorem skipWs_open (cs : List Nat) : skipWs (123 :: cs) = 123 :: cs :=
  skipWs_cons 123 cs (by decide)

theorem parseString_quote (s : String) (rest : List Nat) :
    parseString (quoteChars (codes s) ++ 34 :: rest) = some (s, rest) := by
  simp only [parseString, parseChars_quoteChars (codes s) (codes_scalar s) rest,
    joinSurrogates_scalar (codes s) (codes_scalar s), ofCodes_codes]

theorem endsNumber_comma : endsNumber 44 := by
  refine ⟨by decide, by decide, by decide, by decide⟩

theorem endsNumber_brace : endsNumber 125 := by
  refine ⟨by decide, by decide, by decide, by decide⟩

theorem isDigit_of_bounds (x : Nat) (h : 48 ≤ x ∧ x ≤ 57) : isDigit x = true := by
  simp [isDigit, h]

/-- A run of digits followed by something that does not start with a digit is taken whole. -/
theorem takeDigits_digits (rest : List Nat) (hr : ∀ c r, rest = c :: r → isDigit c = false) :
    ∀ ds : List Nat, AllDigits ds → takeDigits (ds ++ rest) = (ds, rest)
  | [], _ => by
    cases rest with
    | nil => rfl
    | cons c r => simp [takeDigits, hr c r rfl]
  | d :: ds, h => by
    have hd := isDigit_of_bounds d (h d (List.mem_cons_self _ _))
    have ih := takeDigits_digits rest hr ds (fun x hx => h x (List.mem_cons_of_mem _ hx))
    simp [takeDigits, hd, ih]

theorem scanInt_int (i rest : List Nat) (hi : IsJsonInt i)
    (hr : ∀ c r, rest = c :: r → isDigit c = false) : scanInt (i ++ rest) = some (i, rest) := by
  rcases hi with rfl | ⟨d, ds, rfl, hd, hds⟩
  · simp [scanInt]
  · have h1 : ¬ d = 48 := by omega
    simp [scanInt, h1, hd, takeDigits_digits rest hr ds hds]

theorem scanFrac_frac (f rest : List Nat) (hf : IsJsonFrac f)
    (hr : ∀ c r, rest = c :: r → isDigit c = false ∧ c ≠ 46) :
    scanFrac (f ++ rest) = some (f, rest) := by
  rcases hf with rfl | ⟨ds, rfl, hne, hds⟩
  · cases rest with
    | nil => rfl
    | cons c r => simp [scanFrac, (hr c r rfl).2]
  · simp [scanFrac, takeDigits_digits rest (fun c r e => (hr c r e).1) ds hds, hne]

theorem scanExpDigits_digits (ds : List Nat) (hne : ds ≠ []) (hds : AllDigits ds) :
    scanExpDigits ds = some (ds, []) := by
  have h := takeDigits_digits [] (fun c r e => by cases e) ds hds
  rw [List.append_nil] at h
  simp [scanExpDigits, h, hne]

theorem scanExp_exp (e : List Nat) (he : IsJsonExp e) : scanExp e = some (e, []) := by
  rcases he with rfl | ⟨m, sign, ds, rfl, hm, hsign, hne, hds⟩
  · rfl
  · have hsd := scanExpDigits_digits ds hne hds
    rcases hsign with rfl | rfl | rfl
    · cases ds with
      | nil => exact absurd rfl hne
      | cons x xs =>
        have hx := hds x (List.mem_cons_self _ _)
        have h1 : ¬ (x = 43 ∨ x = 45) := by omega
        simp only [List.nil_append, scanExp, hm, if_true, h1, if_false, hsd]
    · simp [scanExp, hm, hsd]
    · simp [scanExp, hm, hsd]

/-- The scanner reads every number literal of the JSON grammar, and reads it whole. -/
theorem scanNumber_jsonNumber (t : List Nat) (h : IsJsonNumber t) :
    scanNumber t = some (t, []) := by
  obtain ⟨sign, i, f, e, rfl, hsign, hi, hf, he⟩ := h
  have hfe : ∀ c r, f ++ e = c :: r → isDigit c = false := by
    intro c r hc
    rcases hf with rfl | ⟨ds, rfl, _, _⟩
    · rcases he with rfl | ⟨m, sg, ds, rfl, hm, _, _, _⟩
      · cases hc
      · simp only [List.nil_append, List.cons.injEq] at hc
        rcases hm with hm | hm <;> (rw [← hc.1, hm]; rfl)
    · simp only [List.cons_append, List.cons.injEq] at hc
      rw [← hc.1]
      rfl
  have he2 : ∀ c r, e = c :: r → isDigit c = false ∧ c ≠ 46 := by
    intro c r hc
    rcases he with rfl | ⟨m, sg, ds, rfl, hm, _, _, _⟩
    · cases hc
    · simp only [List.cons.injEq] at hc
      rcases hm with hm | hm <;> (rw [← hc.1, hm]; exact ⟨rfl, by decide⟩)
  have hu : scanUnsigned (i ++ f ++ e) = some (i ++ f ++ e, []) := by
    have h1 := scanInt_int i (f ++ e) hi hfe
    have h2 := scanFrac_frac f e hf he2
    have h3 := scanExp_exp e he
    simp only [scanUnsigned, List.append_assoc, h1, h2, h3]
  obtain ⟨d, ds, hd⟩ : ∃ d ds, i ++ f ++ e = d :: ds := by
    rcases hi with rfl | ⟨d, ds, rfl, _, _⟩
    · exact ⟨48, f ++ e, by simp⟩
    · exact ⟨d, ds ++ f ++ e, by simp⟩
  have hd45 : d ≠ 45 := by
    rcases hi with rfl | ⟨d1, ds1, rfl, hd1, _⟩
    · simp only [List.cons_append, List.nil_append, List.cons.injEq] at hd
      omega
    · simp only [List.cons_append, List.cons.injEq] at hd
      omega
  rcases hsign with rfl | rfl
  · simp only [List.nil_append]
    rw [hd] at hu ⊢
    simp only [scanNumber, hd45, if_false, hu]
  · simp only [List.cons_append, List.nil_append, List.append_assoc, scanNumber, if_true]
    rw [List.append_assoc] at hu
    simp only [hu]

/-- A Number whose literal is a JSON number is finite. -/
theorem isFiniteNumber_of_scan (literal : String)
    (h : scanNumber (codes literal) = some (codes literal, [])) :
    isFiniteNumber literal = true := by
  have h1 : literal ≠ "NaN" := by
    intro e
    rw [e] at h
    exact absurd h (by decide)
  have h2 : literal ≠ "Infinity" := by
    intro e
    rw [e] at h
    exact absurd h (by decide)
  have h3 : literal ≠ "-Infinity" := by
    intro e
    rw [e] at h
    exact absurd h (by decide)
  simp [isFiniteNumber, h1, h2, h3]

/-- The text `JSON.stringify` writes for a key attribute parses back to the attribute, in
front of a comma or a closing brace. -/
theorem parseValue_attr (v : JSVal) (hv : IsKeyAttr v) (c : Nat) (hc : c = 44 ∨ c = 125)
    (fuel : Nat) (rest : List Nat) :
    ∃ t, serialize v = some t ∧ parseValue (fuel + 1) (t ++ c :: rest) = some (v, c :: rest) := by
  have hend : endsNumber c := by
    rcases hc with rfl | rfl
    · exact endsNumber_comma
    · exact endsNumber_brace
  cases v with
  | undefined => exact absurd hv (by simp [IsKeyAttr])
  | null => exact absurd hv (by simp [IsKeyAttr])
  | bool b => exact absurd hv (by simp [IsKeyAttr])
  | arr items => exact absurd hv (by simp [IsKeyAttr])
  | obj props => exact absurd hv (by simp [IsKeyAttr])
  | str s =>
    refine ⟨quoteJSONString s, by simp [serialize], ?_⟩
    simp only [quoteJSONString, List.cons_append, List.append_assoc, List.singleton_append]
    rw [parseValue, skipWs_cons 34 _ (by decide)]
    simp [parseString_quote]
  | num literal =>
    replace hv := scanNumber_jsonNumber _ hv
    refine ⟨codes literal, by simp [serialize, isFiniteNumber_of_scan literal hv], ?_⟩
    obtain ⟨d, t1, ht, hd⟩ := scanNumber_head _ _ _ hv
    have hs := scanNumber_append c rest hend _ _ _ hv
    rw [ht] at hs ⊢
    rw [List.cons_append] at hs ⊢
    rw [parseValue, skipWs_cons d _ (by omega)]
    have e1 : ¬ d = 123 := by omega
    have e2 : ¬ d = 91 := by omega
    have e3 : ¬ d = 34 := by omega
    have e4 : ¬ d = 116 := by omega
    have e5 : ¬ d = 102 := by omega
    have e6 : ¬ d = 110 := by omega
    simp only [e1, e2, e3, e4, e5, e6, if_false, hs, List.nil_append]
    rw [← ht, ofCodes_codes]

theorem setProp_new (key : String) (v : JSVal) :
    ∀ acc : Props, key ∉ acc.map Prod.fst → setProp acc key v = acc ++ [(key, v)]
  | [], _ => rfl
  | (k, w) :: rest, h => by
    have hk : ¬ k = key := fun e => h (by simp [e])
    have ih := setProp_new key v rest (fun m => h (by simp [m]))
    simp only [setProp, hk, if_false, ih, List.cons_append]

theorem foldl_setProp_nodup : ∀ (k acc : Props), (k.map Prod.fst).Nodup →
    (∀ x ∈ k.map Prod.fst, x ∉ acc.map Prod.fst) →
    k.foldl (fun a kv => setProp a kv.1 kv.2) acc = acc ++ k
  | [], acc, _, _ => by simp
  | (key, v) :: rest, acc, hn, hd => by
    simp only [List.map_cons, List.nodup_cons] at hn
    simp only [List.foldl_cons]
    rw [setProp_new key v acc (hd key (by simp))]
    rw [foldl_setProp_nodup rest (acc ++ [(key, v)]) hn.2]
    · simp
    · intro x hx
      simp only [List.map_append, List.map_cons, List.map_nil, List.mem_append,
        List.mem_singleton, not_or]
      refine ⟨hd x (by simp [hx]), ?_⟩
      rintro rfl
      exact hn.1 hx

/-- The members `JSON.stringify` writes for valid attributes, followed by the closing brace,
parse back to the properties, defined in order after those already read. -/
theorem parseMembers_props : ∀ (k : Props), k.length ≠ 0 → (∀ p ∈ k, IsKeyAttr p.2) →
    ∀ (fuel : Nat), k.length + 1 ≤ fuel → ∀ (acc : Props) (rest : List Nat),
    parseMembers fuel (joinComma (serializeProps k) ++ 125 :: rest) acc =
      some (JSVal.obj (k.foldl (fun a kv => setProp a kv.1 kv.2) acc), rest)
  | [], h, _, _, _, _, _ => absurd rfl h
  | [(key, v)], _, hv, fuel, hf, acc, rest => by
    obtain ⟨f, rfl⟩ : ∃ f, fuel = f + 2 := ⟨fuel - 2, by simp at hf; omega⟩
    obtain ⟨t, hser, hparse⟩ := parseValue_attr v (hv (key, v) (by simp)) 125 (Or.inr rfl) f rest
    simp only [serializeProps, hser, joinComma, quoteJSONString, List.cons_append,
      List.append_assoc, List.singleton_append, List.foldl_cons, List.foldl_nil]
    rw [parseMembers]
    simp only [if_true, parseString_quote, skipWs_colon, hparse, skipWs_close, List.nil_append]
    simp
  | (key, v) :: p2 :: more, _, hv, fuel, hf, acc, rest => by
    obtain ⟨f, rfl⟩ : ∃ f, fuel = f + 2 := ⟨fuel - 2, by simp at hf; omega⟩
    obtain ⟨t, hser, hparse⟩ := parseValue_attr v (hv (key, v) (by simp)) 44 (Or.inl rfl) f
      (joinComma (serializeProps (p2 :: more)) ++ 125 :: rest)
    have ih := parseMembers_props (p2 :: more) (by simp)
      (fun p hp => hv p (List.mem_cons_of_mem _ hp)) (f + 1) (by simp at hf ⊢; omega)
      (setProp acc key v) rest
    obtain ⟨k2, v2⟩ := p2
    obtain ⟨t2, hser2, _⟩ := parseValue_attr v2 (hv (k2, v2) (by simp)) 44 (Or.inl rfl) 0 []
    have hhead : ∃ tl, joinComma (serializeProps ((k2, v2) :: more)) ++ 125 :: rest = 34 :: tl := by
      cases hm : serializeProps more with
      | nil => simp [serializeProps, hser2, hm, joinComma, quoteJSONString]
      | cons m ms => simp [serializeProps, hser2, hm, joinComma, quoteJSONString]
    obtain ⟨tl, htl⟩ := hhead
    have hjoin : joinComma (serializeProps ((key, v) :: (k2, v2) :: more)) =
        quoteJSONString key ++ 58 :: t ++ 44 :: joinComma (serializeProps ((k2, v2) :: more)) := by
      simp [serializeProps, hser, hser2, joinComma]
    rw [hjoin]
    simp only [quoteJSONString, List.cons_append, List.append_assoc, List.singleton_append,
      List.foldl_cons] at ih ⊢
    rw [htl] at ih hparse ⊢
    rw [parseMembers]
    simp only [if_true, parseString_quote, skipWs_colon, hparse, skipWs_comma, skipWs_quote,
      List.nil_append]
    simpa using ih

theorem hexDigit_scalar (d : Nat) (h : d < 16) : (hexDigit d).isValidChar := by
  show hexDigit d < 0xD800 ∨ (0xDFFF < hexDigit d ∧ hexDigit d < 0x110000)
  unfold hexDigit
  split_ifs <;> omega

theorem lt_scalar (n : Nat) (h : n < 128) : n.isValidChar := by
  show n < 0xD800 ∨ (0xDFFF < n ∧ n < 0x110000)
  omega

theorem quoteChar_scalar (c : Nat) (h : c.isValidChar) : ∀ x ∈ quoteChar c, x.isValidChar := by
  have hv : c < 0xD800 ∨ (0xDFFF < c ∧ c < 0x110000) := h
  intro x hx
  unfold quoteChar at hx
  split_ifs at hx with h1 h2 h3 h4 h5 h6 h7 h8
  all_goals try (simp only [List.mem_cons, List.mem_singleton, List.not_mem_nil, or_false] at hx
                 exact lt_scalar x (by omega))
  · simp only [unicodeEscape, List.mem_cons, List.mem_singleton, List.not_mem_nil,
      or_false] at hx
    rcases hx with rfl | rfl | rfl | rfl | rfl | rfl
    · exact lt_scalar _ (by omega)
    · exact lt_scalar _ (by omega)
    · exact hexDigit_scalar _ (by omega)
    · exact hexDigit_scalar _ (by omega)
    · exact hexDigit_scalar _ (by omega)
    · exact hexDigit_scalar _ (by omega)
  · simp only [List.mem_singleton] at hx
    rw [hx]
    exact h

theorem quoteChars_scalar : ∀ cs : List Nat, (∀ c ∈ cs, c.isValidChar) →
    ∀ x ∈ quoteChars cs, x.isValidChar
  | [], _, x, hx => by cases hx
  | c :: cs, h, x, hx => by
    simp only [quoteChars, List.mem_append] at hx
    rcases hx with hx | hx
    · exact quoteChar_scalar c (h c (List.mem_cons_self _ _)) x hx
    · exact quoteChars_scalar cs (fun y hy => h y (List.mem_cons_of_mem _ hy)) x hx

theorem quoteJSONString_scalar (s : String) : ∀ x ∈ quoteJSONString s, x.isValidChar := by
  intro x hx
  simp only [quoteJSONString, List.mem_cons, List.mem_append, List.mem_singleton,
    List.not_mem_nil, or_false] at hx
  rcases hx with rfl | hx | rfl
  · exact lt_scalar _ (by omega)
  · exact quoteChars_scalar _ (codes_scalar s) x hx
  · exact lt_scalar _ (by omega)

theorem joinComma_scalar : ∀ ms : List (List Nat), (∀ m ∈ ms, ∀ x ∈ m, x.isValidChar) →
    ∀ x ∈ joinComma ms, x.isValidChar
  | [], _, x, hx => by cases hx
  | [m], h, x, hx => h m (by simp) x hx
  | m :: m2 :: rest, h, x, hx => by
    simp only [joinComma, List.mem_append, List.mem_cons] at hx
    rcases hx with hx | rfl | hx
    · exact h m (by simp) x hx
    · exact lt_scalar _ (by omega)
    · exact joinComma_scalar (m2 :: rest) (fun y hy => h y (List.mem_cons_of_mem _ hy)) x hx

theorem serializeProps_attrs : ∀ k : Props, (∀ p ∈ k, IsKeyAttr p.2) →
    (serializeProps k).length = k.length ∧
    (∀ m ∈ serializeProps k, m ≠ []) ∧
    (∀ m ∈ serializeProps k, ∀ x ∈ m, x.isValidChar)
  | [], _ => by simp [serializeProps]
  | (key, v) :: rest, h => by
    obtain ⟨ih1, ih2, ih3⟩ := serializeProps_attrs rest (fun p hp => h p (List.mem_cons_of_mem _ hp))
    have hv : IsKeyAttr v := h (key, v) (by simp)
    have hser : ∃ t, serialize v = some t ∧ ∀ x ∈ t, x.isValidChar := by
      cases v with
      | undefined => exact absurd hv (by simp [IsKeyAttr])
      | null => exact absurd hv (by simp [IsKeyAttr])
      | bool b => exact absurd hv (by simp [IsKeyAttr])
      | arr items => exact absurd hv (by simp [IsKeyAttr])
      | obj props => exact absurd hv (by simp [IsKeyAttr])
      | str s => exact ⟨_, by simp [serialize], quoteJSONString_scalar s⟩
      | num literal =>
        replace hv := scanNumber_jsonNumber _ hv
        exact ⟨codes literal, by simp [serialize, isFiniteNumber_of_scan literal hv],
          codes_scalar literal⟩
    obtain ⟨t, ht, hts⟩ := hser
    simp only [serializeProps, ht, List.length_cons, ih1, List.mem_cons, true_and]
    refine ⟨?_, ?_⟩
    · rintro m (rfl | hm)
      · simp [quoteJSONString]
      · exact ih2 m hm
    · rintro m (rfl | hm) x hx
      · simp only [List.mem_append, List.mem_cons] at hx
        rcases hx with hx | rfl | hx
        · exact quoteJSONString_scalar key x hx
        · exact lt_scalar _ (by omega)
        · exact hts x hx
      · exact ih3 m hm x hx

theorem joinComma_length : ∀ ms : List (List Nat), (∀ m ∈ ms, m ≠ []) →
    ms.length ≤ (joinComma ms).length
  | [], _ => by simp [joinComma]
  | [m], h => by
    have : m ≠ [] := h m (by simp)
    have : 0 < m.length := List.length_pos.mpr this
    simp only [joinComma, List.length_singleton]
    omega
  | m :: m2 :: rest, h => by
    have ih := joinComma_length (m2 :: rest) (fun y hy => h y (List.mem_cons_of_mem _ hy))
    simp only [joinComma, List.length_cons, List.length_append] at ih ⊢
    omega

theorem keyText_scalar (k : Props) (h : ∀ p ∈ k, IsKeyAttr p.2) :
    ∀ x ∈ keyText k, x.isValidChar := by
  intro x hx
  simp only [keyText, List.mem_cons, List.mem_append, List.mem_singleton, List.not_mem_nil,
    or_false] at hx
  rcases hx with rfl | hx | rfl
  · exact lt_scalar _ (by omega)
  · exact joinComma_scalar _ (serializeProps_attrs k h).2.2 x hx
  · exact lt_scalar _ (by omega)

/-- `JSON.parse` reads the text `JSON.stringify` wrote for a valid key back to that key. -/
theorem jsonParse_keyText (k : Props) (h : ValidKey k) : jsonParse (keyText k) = some (JSVal.obj k) := by
  obtain ⟨hne, hnd, hattr⟩ := h
  obtain ⟨hlen, hnonempty, _⟩ := serializeProps_attrs k hattr
  have hjl := joinComma_length _ hnonempty
  have hhead : ∃ tl, joinComma (serializeProps k) ++ [125] = 34 :: tl := by
    cases k with
    | nil => exact absurd rfl hne
    | cons p more =>
      obtain ⟨k2, v2⟩ := p
      obtain ⟨t2, hser2, _⟩ := parseValue_attr v2 (hattr (k2, v2) (by simp)) 44 (Or.inl rfl) 0 []
      cases hm : serializeProps more with
      | nil => simp [serializeProps, hser2, hm, joinComma, quoteJSONString]
      | cons m ms => simp [serializeProps, hser2, hm, joinComma, quoteJSONString]
  obtain ⟨tl, htl⟩ := hhead
  have hmem := parseMembers_props k hne hattr (keyText k).length
    (by simp only [keyText, List.length_cons, List.length_append, List.length_singleton]; omega)
    [] []
  rw [foldl_setProp_nodup k [] hnd (by simp)] at hmem
  simp only [jsonParse]
  rw [parseValue]
  simp only [keyText, skipWs_open, if_true, htl, skipWs_quote] at hmem ⊢
  simp only [show ¬ (34 = 125) by decide, if_false, hmem, List.nil_append, skipWs, if_true]

theorem b64Char_lt (n : Nat) (h : n < 64) : b64Char n < 128 := by
  unfold b64Char
  split_ifs <;> omega

theorem base64Encode_ascii : ∀ bs : List Nat, (∀ b ∈ bs, b < 256) →
    ∀ x ∈ base64Encode bs, x < 128
  | [], _, x, hx => by cases hx
  | [a], h, x, hx => by
    have ha : a < 256 := h a (by simp)
    simp only [base64Encode, List.mem_cons, List.mem_singleton, List.not_mem_nil,
      or_false] at hx
    rcases hx with rfl | rfl | rfl | rfl
    · exact b64Char_lt _ (by omega)
    · exact b64Char_lt _ (by omega)
    · omega
    · omega
  | [a, b], h, x, hx => by
    have ha : a < 256 := h a (by simp)
    have hb : b < 256 := h b (by simp)
    simp only [base64Encode, List.mem_cons, List.mem_singleton, List.not_mem_nil,
      or_false] at hx
    rcases hx with rfl | rfl | rfl | rfl
    · exact b64Char_lt _ (by omega)
    · exact b64Char_lt _ (by omega)
    · exact b64Char_lt _ (by omega)
    · omega
  | a :: b :: c :: rest, h, x, hx => by
    have ha : a < 256 := h a (by simp)
    have hb : b < 256 := h b (by simp)
    have hc : c < 256 := h c (by simp)
    simp only [base64Encode, List.mem_cons] at hx
    rcases hx with rfl | rfl | rfl | rfl | hx
    · exact b64Char_lt _ (by omega)
    · exact b64Char_lt _ (by omega)
    · exact b64Char_lt _ (by omega)
    · exact b64Char_lt _ (by omega)
    · exact base64Encode_ascii rest (fun y hy => h y (by simp [hy])) x hx

theorem base64Encode_ne_nil : ∀ bs : List Nat, bs ≠ [] → base64Encode bs ≠ []
  | [], h => absurd rfl h
  | [_], _ => by simp [base64Encode]
  | [_, _], _ => by simp [base64Encode]
  | _ :: _ :: _ :: _, _ => by simp [base64Encode]

theorem utf8EncodeChar_ne_nil (n : Nat) : utf8EncodeChar n ≠ [] := by
  unfold utf8EncodeChar
  split_ifs <;> simp

theorem utf8Encode_keyText_ne_nil (k : Props) : utf8Encode (keyText k) ≠ [] := by
  simp only [keyText, utf8Encode]
  intro h
  exact utf8EncodeChar_ne_nil 123 (List.append_eq_nil.mp h).1

theorem utf16Units_ofCodes : ∀ l : List Nat, (∀ x ∈ l, x < 128) →
    utf16Units (ofCodes l).data = l
  | [], _ => rfl
  | a :: t, h => by
    have ha : a < 128 := h a (List.mem_cons_self _ _)
    have ih := utf16Units_ofCodes t (fun x hx => h x (List.mem_cons_of_mem _ hx))
    have hv : (Char.ofNat a).toNat = a := toNat_ofNat_valid a (lt_scalar a ha)
    simp only [ofCodes, List.map_cons, utf16Units, hv] at ih ⊢
    rw [if_pos (by omega), ih]

theorem encodeKey_eq (k : Props) :
    encodeKey k = ofCodes (base64Encode (utf8Encode (keyText k))) := rfl

theorem encodeKey_ne_empty (k : Props) : encodeKey k ≠ "" := by
  intro h
  have hd : (encodeKey k).data = [] := by rw [h]
  rw [encodeKey_eq] at hd
  simp only [ofCodes, List.map_eq_nil_iff] at hd
  exact base64Encode_ne_nil _ (utf8Encode_keyText_ne_nil k) hd

/-! ## The parser consumes its input, so the length of the text is enough fuel -/

theorem skipWs_length : ∀ cs : List Nat, (skipWs cs).length ≤ cs.length
  | [] => by simp [skipWs]
  | c :: cs => by
    have ih := skipWs_length cs
    simp only [skipWs]
    split_ifs
    · simp only [List.length_cons]
      omega
    · exact Nat.le_refl _

theorem takeDigits_length : ∀ cs : List Nat, (takeDigits cs).2.length ≤ cs.length
  | [] => by simp [takeDigits]
  | c :: cs => by
    have ih := takeDigits_length cs
    simp only [takeDigits]
    split_ifs
    · simp only [List.length_cons]
      omega
    · exact Nat.le_refl _

theorem scanInt_length (cs u v : List Nat) (h : scanInt cs = some (u, v)) :
    v.length < cs.length := by
  cases cs with
  | nil => simp [scanInt] at h
  | cons d t =>
    have ht := takeDigits_length t
    simp only [scanInt] at h
    by_cases h1 : d = 48
    · simp only [h1, if_true, Option.some.injEq, Prod.mk.injEq] at h
      rw [← h.2]
      simp
    · by_cases h2 : 49 ≤ d ∧ d ≤ 57
      · simp only [h1, h2, if_true, if_false, and_self, Option.some.injEq, Prod.mk.injEq] at h
        rw [← h.2]
        simp only [List.length_cons]
        omega
      · simp only [h1, h2, if_false] at h
        cases h

theorem scanFrac_length (cs u v : List Nat) (h : scanFrac cs = some (u, v)) :
    v.length ≤ cs.length := by
  cases cs with
  | nil =>
    simp only [scanFrac, Option.some.injEq, Prod.mk.injEq] at h
    rw [← h.2]
  | cons d t =>
    have ht := takeDigits_length t
    simp only [scanFrac] at h
    by_cases h1 : d = 46
    · by_cases h2 : (takeDigits t).1 = []
      · simp only [h1, h2, if_true] at h
        cases h
      · simp only [h1, h2, if_true, if_false, Option.some.injEq, Prod.mk.injEq] at h
        rw [← h.2]
        simp only [List.length_cons]
        omega
    · simp only [h1, if_false, Option.some.injEq, Prod.mk.injEq] at h
      rw [← h.2]

theorem scanExpDigits_length (cs u v : List Nat) (h : scanExpDigits cs = some (u, v)) :
    v.length ≤ cs.length := by
  have ht := takeDigits_length cs
  simp only [scanExpDigits] at h
  by_cases h1 : (takeDigits cs).1 = []
  · simp only [h1, if_true] at h
    cases h
  · simp only [h1, if_false, Option.some.injEq, Prod.mk.injEq] at h
    rw [← h.2]
    exact ht

theorem scanExp_length (cs u v : List Nat) (h : scanExp cs = some (u, v)) :
    v.length ≤ cs.length := by
  cases cs with
  | nil =>
    simp only [scanExp, Option.some.injEq, Prod.mk.injEq] at h
    rw [← h.2]
  | cons d t =>
    by_cases hd : d = 101 ∨ d = 69
    · cases t with
      | nil => simp [scanExp, hd] at h
      | cons x ds =>
        simp only [scanExp, hd, if_true] at h
        by_cases hx : x = 43 ∨ x = 45
        · simp only [hx, if_true] at h
          cases hs : scanExpDigits ds with
          | none => simp [hs] at h
          | some p =>
            obtain ⟨a, b⟩ := p
            rw [hs] at h
            simp only [Option.some.injEq, Prod.mk.injEq] at h
            have := scanExpDigits_length ds a b hs
            rw [← h.2]
            simp only [List.length_cons]
            omega
        · simp only [hx, if_false] at h
          cases hs : scanExpDigits (x :: ds) with
          | none => simp [hs] at h
          | some p =>
            obtain ⟨a, b⟩ := p
            rw [hs] at h
            simp only [Option.some.injEq, Prod.mk.injEq] at h
            have := scanExpDigits_length (x :: ds) a b hs
            rw [← h.2]
            simp only [List.length_cons] at this ⊢
            omega
    · simp only [scanExp, hd, if_false, Option.some.injEq, Prod.mk.injEq] at h
      rw [← h.2]

theorem scanUnsigned_length (cs u v : List Nat) (h : scanUnsigned cs = some (u, v)) :
    v.length < cs.length := by
  simp only [scanUnsigned] at h
  cases h1 : scanInt cs with
  | none => simp [h1] at h
  | some p1 =>
    obtain ⟨i, r1⟩ := p1
    rw [h1] at h
    simp only at h
    cases h2 : scanFrac r1 with
    | none => simp [h2] at h
    | some p2 =>
      obtain ⟨f, r2⟩ := p2
      rw [h2] at h
      simp only at h
      cases h3 : scanExp r2 with
      | none => simp [h3] at h
      | some p3 =>
        obtain ⟨e, r3⟩ := p3
        rw [h3] at h
        simp only [Option.some.injEq, Prod.mk.injEq] at h
        have l1 := scanInt_length cs i r1 h1
        have l2 := scanFrac_length r1 f r2 h2
        have l3 := scanExp_length r2 e r3 h3
        rw [← h.2]
        omega

theorem scanNumber_length (cs u v : List Nat) (h : scanNumber cs = some (u, v)) :
    v.length < cs.length := by
  cases cs with
  | nil => simp [scanNumber] at h
  | cons d t =>
    simp only [scanNumber] at h
    by_cases h1 : d = 45
    · simp only [h1, if_true] at h
      cases hs : scanUnsigned t with
      | none => simp [hs] at h
      | some p =>
        obtain ⟨a, b⟩ := p
        rw [hs] at h
        simp only [Option.some.injEq, Prod.mk.injEq] at h
        have := scanUnsigned_length t a b hs
        rw [← h.2]
        simp only [List.length_cons]
        omega
    · simp only [h1, if_false] at h
      exact scanUnsigned_length _ u v h

theorem consChar_some (c : Nat) (o : Option (List Nat × List Nat)) (s r : List Nat)
    (h : consChar c o = some (s, r)) : ∃ s1, o = some (s1, r) := by
  cases o with
  | none => simp [consChar] at h
  | some p =>
    obtain ⟨a, b⟩ := p
    simp only [consChar, Option.some.injEq, Prod.mk.injEq] at h
    exact ⟨a, by rw [h.2]⟩

theorem parseChars_length : ∀ (n : Nat) (cs : List Nat), cs.length ≤ n → ∀ s r,
    parseChars cs = some (s, r) → r.length < cs.length
  | 0, cs, hn, s, r, h => by
    have : cs = [] := List.length_eq_zero.mp (Nat.le_zero.mp hn)
    subst this
    simp [parseChars] at h
  | n + 1, cs, hn, s, r, h => by
    rw [parseChars.eq_def] at h
    cases cs with
    | nil => simp at h
    | cons c cs =>
      simp only [List.length_cons] at hn ⊢
      simp only at h
      by_cases h1 : c = 34
      · simp only [h1, if_true, Option.some.injEq, Prod.mk.injEq] at h
        rw [← h.2]
        omega
      · rw [if_neg h1] at h
        by_cases h2 : c = 92
        · rw [if_pos h2] at h
          cases cs with
          | nil => simp at h
          | cons e r1 =>
            simp only [List.length_cons] at hn ⊢
            simp only at h
            have key : ∀ x, consChar x (parseChars r1) = some (s, r) →
                r.length < r1.length + 1 + 1 := by
              intro x hx
              obtain ⟨s1, hs1⟩ := consChar_some _ _ _ _ hx
              have := parseChars_length n r1 (by omega) s1 r hs1
              omega
            by_cases e1 : e = 34 ∨ e = 92 ∨ e = 47
            · rw [if_pos e1] at h
              exact key _ h
            rw [if_neg e1] at h
            by_cases e2 : e = 98
            · rw [if_pos e2] at h
              exact key _ h
            rw [if_neg e2] at h
            by_cases e3 : e = 102
            · rw [if_pos e3] at h
              exact key _ h
            rw [if_neg e3] at h
            by_cases e4 : e = 110
            · rw [if_pos e4] at h
              exact key _ h
            rw [if_neg e4] at h
            by_cases e5 : e = 114
            · rw [if_pos e5] at h
              exact key _ h
            rw [if_neg e5] at h
            by_cases e6 : e = 116
            · rw [if_pos e6] at h
              exact key _ h
            rw [if_neg e6] at h
            by_cases e7 : e = 117
            · rw [if_pos e7] at h
              match r1, h, hn with
              | [], h, _ => simp at h
              | [_], h, _ => simp at h
              | [_, _], h, _ => simp at h
              | [_, _, _], h, _ => simp at h
              | a1 :: a2 :: a3 :: a4 :: r5, h, hn =>
                simp only [List.length_cons] at hn ⊢
                simp only at h
                cases hh : hex4 a1 a2 a3 a4 with
                | none => simp [hh] at h
                | some u =>
                  rw [hh] at h
                  simp only at h
                  obtain ⟨s1, hs1⟩ := consChar_some _ _ _ _ h
                  have := parseChars_length n r5 (by omega) s1 r hs1
                  omega
            · rw [if_neg e7] at h
              cases h
        · rw [if_neg h2] at h
          by_cases h3 : c < 32
          · rw [if_pos h3] at h
            cases h
          · rw [if_neg h3] at h
            obtain ⟨s1, hs1⟩ := consChar_some _ _ _ _ h
            have := parseChars_length n cs (by omega) s1 r hs1
            omega

theorem parseString_length (cs : List Nat) (s : String) (r : List Nat)
    (h : parseString cs = some (s, r)) : r.length < cs.length := by
  simp only [parseString] at h
  cases hp : parseChars cs with
  | none => simp [hp] at h
  | some p =>
    obtain ⟨a, b⟩ := p
    rw [hp] at h
    simp only [Option.some.injEq, Prod.mk.injEq] at h
    rw [← h.2]
    exact parseChars_length _ cs (Nat.le_refl _) a b hp

/-- What is left after a value, the members of an object or the elements of an array is
shorter than the text parsed. -/
theorem parse_length : ∀ fuel : Nat,
    (∀ cs v r, parseValue fuel cs = some (v, r) → r.length < cs.length) ∧
    (∀ cs acc v r, parseMembers fuel cs acc = some (v, r) → r.length < cs.length) ∧
    (∀ cs acc v r, parseElements fuel cs acc = some (v, r) → r.length < cs.length)
  | 0 => by
    refine ⟨?_, ?_, ?_⟩
    · intro cs v r h
      simp [parseValue] at h
    · intro cs acc v r h
      simp [parseMembers] at h
    · intro cs acc v r h
      simp [parseElements] at h
  | f + 1 => by
    obtain ⟨ihv, ihm, ihe⟩ := parse_length f
    refine ⟨?_, ?_, ?_⟩
    · intro cs v r h
      rw [parseValue] at h
      have hws := skipWs_length cs
      cases hs : skipWs cs with
      | nil => simp [hs] at h
      | cons c r0 =>
        rw [hs] at h hws
        simp only [List.length_cons] at hws
        simp only at h
        by_cases c1 : c = 123
        · rw [if_pos c1] at h
          have hws2 := skipWs_length r0
          cases hs2 : skipWs r0 with
          | nil => simp [hs2] at h
          | cons d r1 =>
            rw [hs2] at h hws2
            simp only [List.length_cons] at hws2
            simp only at h
            by_cases d1 : d = 125
            · simp only [d1, if_true, Option.some.injEq, Prod.mk.injEq] at h
              rw [← h.2]
              omega
            · rw [if_neg d1] at h
              have := ihm _ _ _ _ h
              simp only [List.length_cons] at this
              omega
        rw [if_neg c1] at h
        by_cases c2 : c = 91
        · rw [if_pos c2] at h
          have hws2 := skipWs_length r0
          cases hs2 : skipWs r0 with
          | nil => simp [hs2] at h
          | cons d r1 =>
            rw [hs2] at h hws2
            simp only [List.length_cons] at hws2
            simp only at h
            by_cases d1 : d = 93
            · simp only [d1, if_true, Option.some.injEq, Prod.mk.injEq] at h
              rw [← h.2]
              omega
            · rw [if_neg d1] at h
              have := ihe _ _ _ _ h
              simp only [List.length_cons] at this
              omega
        rw [if_neg c2] at h
        by_cases c3 : c = 34
        · rw [if_pos c3] at h
          cases hp : parseString r0 with
          | none => simp [hp] at h
          | some p =>
            obtain ⟨s, r1⟩ := p
            rw [hp] at h
            simp only [Option.some.injEq, Prod.mk.injEq] at h
            have := parseString_length r0 s r1 hp
            rw [← h.2]
            omega
        rw [if_neg c3] at h
        by_cases c4 : c = 116
        · rw [if_pos c4] at h
          split at h
          · simp only [Option.some.injEq, Prod.mk.injEq] at h
            rw [← h.2]
            simp only [List.length_cons] at hws
            omega
          · cases h
        rw [if_neg c4] at h
        by_cases c5 : c = 102
        · rw [if_pos c5] at h
          split at h
          · simp only [Option.some.injEq, Prod.mk.injEq] at h
            rw [← h.2]
            simp only [List.length_cons] at hws
            omega
          · cases h
        rw [if_neg c5] at h
        by_cases c6 : c = 110
        · rw [if_pos c6] at h
          split at h
          · simp only [Option.some.injEq, Prod.mk.injEq] at h
            rw [← h.2]
            simp only [List.length_cons] at hws
            omega
          · cases h
        rw [if_neg c6] at h
        cases hn : scanNumber (c :: r0) with
        | none => simp [hn] at h
        | some p =>
          obtain ⟨t, r1⟩ := p
          rw [hn] at h
          simp only [Option.some.injEq, Prod.mk.injEq] at h
          have := scanNumber_length _ t r1 hn
          simp only [List.length_cons] at this
          rw [← h.2]
          omega
    · intro cs acc v r h
      rw [parseMembers.eq_def] at h
      cases cs with
      | nil => simp at h
      | cons q r0 =>
        simp only at h
        by_cases q1 : q = 34
        · rw [if_pos q1] at h
          cases hp : parseString r0 with
          | none => simp [hp] at h
          | some p =>
            obtain ⟨k, r1⟩ := p
            rw [hp] at h
            simp only at h
            have l1 := parseString_length r0 k r1 hp
            have hws := skipWs_length r1
            cases hs : skipWs r1 with
            | nil => simp [hs] at h
            | cons colon r2 =>
              rw [hs] at h hws
              simp only [List.length_cons] at hws
              simp only at h
              by_cases k1 : colon = 58
              · rw [if_pos k1] at h
                cases hv : parseValue f r2 with
                | none => simp [hv] at h
                | some p2 =>
                  obtain ⟨v2, r3⟩ := p2
                  rw [hv] at h
                  simp only at h
                  have l2 := ihv _ _ _ hv
                  have hws3 := skipWs_length r3
                  cases hs3 : skipWs r3 with
                  | nil => simp [hs3] at h
                  | cons d r4 =>
                    rw [hs3] at h hws3
                    simp only [List.length_cons] at hws3
                    simp only at h
                    by_cases d1 : d = 44
                    · rw [if_pos d1] at h
                      have l3 := ihm _ _ _ _ h
                      have hws4 := skipWs_length r4
                      simp only [List.length_cons]
                      omega
                    · rw [if_neg d1] at h
                      by_cases d2 : d = 125
                      · simp only [d2, if_true, Option.some.injEq, Prod.mk.injEq] at h
                        rw [← h.2]
                        simp only [List.length_cons]
                        omega
                      · rw [if_neg d2] at h
                        cases h
              · rw [if_neg k1] at h
                cases h
        · rw [if_neg q1] at h
          cases h
    · intro cs acc v r h
      rw [parseElements] at h
      cases hv : parseValue f cs with
      | none => simp [hv] at h
      | some p2 =>
        obtain ⟨v2, r1⟩ := p2
        rw [hv] at h
        simp only at h
        have l2 := ihv _ _ _ hv
        have hws := skipWs_length r1
        cases hs : skipWs r1 with
        | nil => simp [hs] at h
        | cons d r2 =>
          rw [hs] at h hws
          simp only [List.length_cons] at hws
          simp only at h
          by_cases d1 : d = 44
          · rw [if_pos d1] at h
            have l3 := ihe _ _ _ _ h
            omega
          · rw [if_neg d1] at h
            by_cases d2 : d = 93
            · simp only [d2, if_true, Option.some.injEq, Prod.mk.injEq] at h
              rw [← h.2]
              omega
            · rw [if_neg d2] at h
              cases h

/-- A parse that succeeds with some fuel succeeds, with the same result, with any fuel that is
at least the number of code points it consumes. -/
theorem parse_enough : ∀ g : Nat,
    (∀ cs v r, parseValue g cs = some (v, r) →
      ∀ f, cs.length - r.length ≤ f → parseValue f cs = some (v, r)) ∧
    (∀ cs acc v r, parseMembers g cs acc = some (v, r) →
      ∀ f, cs.length - r.length ≤ f → parseMembers f cs acc = some (v, r)) ∧
    (∀ cs acc v r, parseElements g cs acc = some (v, r) →
      ∀ f, cs.length - r.length ≤ f → parseElements f cs acc = some (v, r))
  | 0 => by
    refine ⟨?_, ?_, ?_⟩
    · intro cs v r h
      simp [parseValue] at h
    · intro cs acc v r h
      simp [parseMembers] at h
    · intro cs acc v r h
      simp [parseElements] at h
  | g + 1 => by
    obtain ⟨ihv, ihm, ihe⟩ := parse_enough g
    refine ⟨?_, ?_, ?_⟩
    · intro cs v r h f hf
      have hl := (parse_length (g + 1)).1 cs v r h
      obtain ⟨f1, rfl⟩ : ∃ f1, f = f1 + 1 := ⟨f - 1, by omega⟩
      rw [parseValue] at h ⊢
      have hws := skipWs_length cs
      cases hs : skipWs cs with
      | nil => simp [hs] at h
      | cons c r0 =>
        rw [hs] at h hws
        simp only [List.length_cons] at hws
        simp only at h ⊢
        by_cases c1 : c = 123
        · rw [if_pos c1] at h ⊢
          have hws2 := skipWs_length r0
          cases hs2 : skipWs r0 with
          | nil => simp [hs2] at h
          | cons d r1 =>
            rw [hs2] at h hws2
            simp only [List.length_cons] at hws2
            simp only at h ⊢
            by_cases d1 : d = 125
            · rw [if_pos d1] at h ⊢
              exact h
            · rw [if_neg d1] at h ⊢
              exact ihm _ _ _ _ h f1 (by simp only [List.length_cons]; omega)
        rw [if_neg c1] at h ⊢
        by_cases c2 : c = 91
        · rw [if_pos c2] at h ⊢
          have hws2 := skipWs_length r0
          cases hs2 : skipWs r0 with
          | nil => simp [hs2] at h
          | cons d r1 =>
            rw [hs2] at h hws2
            simp only [List.length_cons] at hws2
            simp only at h ⊢
            by_cases d1 : d = 93
            · rw [if_pos d1] at h ⊢
              exact h
            · rw [if_neg d1] at h ⊢
              exact ihe _ _ _ _ h f1 (by simp only [List.length_cons]; omega)
        rw [if_neg c2] at h ⊢
        exact h
    · intro cs acc v r h f hf
      have hl := (parse_length (g + 1)).2.1 cs acc v r h
      obtain ⟨f1, rfl⟩ : ∃ f1, f = f1 + 1 := ⟨f - 1, by omega⟩
      rw [parseMembers.eq_def] at h ⊢
      cases cs with
      | nil => simp at h
      | cons q r0 =>
        simp only [List.length_cons] at hf hl
        simp only at h ⊢
        by_cases q1 : q = 34
        · rw [if_pos q1] at h ⊢
          cases hp : parseString r0 with
          | none => simp [hp] at h
          | some p =>
            obtain ⟨k, r1⟩ := p
            rw [hp] at h
            simp only at h ⊢
            have l1 := parseString_length r0 k r1 hp
            have hws := skipWs_length r1
            cases hs : skipWs r1 with
            | nil => simp [hs] at h
            | cons colon r2 =>
              rw [hs] at h hws
              simp only [List.length_cons] at hws
              simp only at h ⊢
              by_cases k1 : colon = 58
              · rw [if_pos k1] at h ⊢
                cases hv : parseValue g r2 with
                | none => simp [hv] at h
                | some p2 =>
                  obtain ⟨v2, r3⟩ := p2
                  rw [hv] at h
                  simp only at h
                  have l2 := (parse_length g).1 _ _ _ hv
                  have hws3 := skipWs_length r3
                  cases hs3 : skipWs r3 with
                  | nil => simp [hs3] at h
                  | cons d r4 =>
                    rw [hs3] at h hws3
                    simp only [List.length_cons] at hws3
                    simp only at h
                    have hr : r.length ≤ r4.length := by
                      by_cases d1 : d = 44
                      · rw [if_pos d1] at h
                        have l3 := (parse_length g).2.1 _ _ _ _ h
                        have hws4 := skipWs_length r4
                        omega
                      · rw [if_neg d1] at h
                        by_cases d2 : d = 125
                        · simp only [d2, if_true, Option.some.injEq, Prod.mk.injEq] at h
                          rw [← h.2]
                        · rw [if_neg d2] at h
                          cases h
                    rw [ihv _ _ _ hv f1 (by omega)]
                    simp only [hs3]
                    by_cases d1 : d = 44
                    · rw [if_pos d1] at h ⊢
                      have hws4 := skipWs_length r4
                      exact ihm _ _ _ _ h f1 (by omega)
                    · rw [if_neg d1] at h ⊢
                      exact h
              · rw [if_neg k1] at h
                cases h
        · rw [if_neg q1] at h
          cases h
    · intro cs acc v r h f hf
      have hl := (parse_length (g + 1)).2.2 cs acc v r h
      obtain ⟨f1, rfl⟩ : ∃ f1, f = f1 + 1 := ⟨f - 1, by omega⟩
      rw [parseElements] at h ⊢
      cases hv : parseValue g cs with
      | none => simp [hv] at h
      | some p2 =>
        obtain ⟨v2, r1⟩ := p2
        rw [hv] at h
        simp only at h
        have l2 := (parse_length g).1 _ _ _ hv
        have hws := skipWs_length r1
        cases hs : skipWs r1 with
        | nil => simp [hs] at h
        | cons d r2 =>
          rw [hs] at h hws
          simp only [List.length_cons] at hws
          simp only at h
          have hr : r.length ≤ r2.length := by
            by_cases d1 : d = 44
            · rw [if_pos d1] at h
              have l3 := (parse_length g).2.2 _ _ _ _ h
              omega
            · rw [if_neg d1] at h
              by_cases d2 : d = 93
              · simp only [d2, if_true, Option.some.injEq, Prod.mk.injEq] at h
                rw [← h.2]
              · rw [if_neg d2] at h
                cases h
          rw [ihv _ _ _ hv f1 (by omega)]
          simp only [hs]
          by_cases d1 : d = 44
          · rw [if_pos d1] at h ⊢
            exact ihe _ _ _ _ h f1 (by omega)
          · rw [if_neg d1] at h ⊢
            exact h

/-- The fuel `jsonParse` gives the parser is enough: any larger fuel yields the same result. -/
theorem parseValue_fuel (cs : List Nat) (f : Nat) (hf : cs.length + 1 ≤ f) :
    parseValue f cs = parseValue (cs.length + 1) cs := by
  cases h1 : parseValue f cs with
  | some p =>
    obtain ⟨v, r⟩ := p
    exact ((parse_enough f).1 cs v r h1 (cs.length + 1) (by omega)).symm
  | none =>
    cases h2 : parseValue (cs.length + 1) cs with
    | none => rfl
    | some p =>
      obtain ⟨v, r⟩ := p
      have := (parse_enough _).1 cs v r h2 f (by omega)
      rw [h1] at this
      cases this

/-! ## Properties of the cursor token -/

/-- C3: for every valid last evaluated key, the token `listDataPoints` produces is the base64
text of the JSON serialisation of the key, and decoding that token with the decoding
`listDataPoints` applies to an incoming `nextToken` yields the key. -/
theorem decodeNextToken_encodeKey (k : Props) (h : ValidKey k) :
    nextTokenOf (some k) = Except.ok (JSVal.str (encodeKey k)) ∧
    decodeNextToken (some (encodeKey k)) = JSVal.obj k := by
  have hs := keyText_scalar k h.2.2
  have hb := utf8Encode_lt _ hs
  have hc : utf16Units (encodeKey k).data = base64Encode (utf8Encode (keyText k)) := by
    rw [encodeKey_eq]
    exact utf16Units_ofCodes _ (base64Encode_ascii _ hb)
  refine ⟨by simp [nextTokenOf, serialize, encodeKey, keyText], ?_⟩
  simp only [decodeNextToken, encodeKey_ne_empty k, if_false, hc, base64Decode_encode _ hb,
    utf8Decode_encode _ hs, jsonParse_keyText k h]

/-- The literal `-12.5e+3` is a number literal of the JSON grammar. -/
theorem sampleNumber_json : IsJsonNumber (codes "-12.5e+3") :=
  ⟨[45], [49, 50], [46, 53], [101, 43, 51], by decide, Or.inr rfl,
    Or.inr ⟨49, [50], rfl, by decide, by simp [AllDigits]⟩,
    Or.inr ⟨[53], rfl, by simp, by simp [AllDigits]⟩,
    Or.inr ⟨101, [43], [51], rfl, Or.inl rfl, Or.inr (Or.inl rfl), by simp,
      by simp [AllDigits]⟩⟩

/-- The key with the string attribute `PK` and the number attribute `SK` is valid. -/
theorem sampleKey_valid :
    ValidKey [("PK", JSVal.str "u1#d1"), ("SK", JSVal.num "-12.5e+3")] := by
  refine ⟨by decide, by decide, ?_⟩
  intro p hp
  simp only [List.mem_cons, List.mem_singleton, List.not_mem_nil, or_false] at hp
  rcases hp with rfl | rfl
  · exact trivial
  · exact sampleNumber_json

/-- C3 (witness): the key with the string `u1#d1` and the number `-12.5e+3` is valid, and its
token decodes to it. -/
theorem decodeNextToken_encodeKey_witness :
    nextTokenOf (some [("PK", JSVal.str "u1#d1"), ("SK", JSVal.num "-12.5e+3")]) =
      Except.ok (JSVal.str
        (encodeKey [("PK", JSVal.str "u1#d1"), ("SK", JSVal.num "-12.5e+3")])) ∧
    decodeNextToken
        (some (encodeKey [("PK", JSVal.str "u1#d1"), ("SK", JSVal.num "-12.5e+3")])) =
      JSVal.obj [("PK", JSVal.str "u1#d1"), ("SK", JSVal.num "-12.5e+3")] :=
  decodeNextToken_encodeKey [("PK", JSVal.str "u1#d1"), ("SK", JSVal.num "-12.5e+3")]
    sampleKey_valid

/-- The token of the key with partition key `u1#d1` and sort key `2024-01-01`. -/
theorem encodeKey_sample :
    encodeKey [("PK", JSVal.str "u1#d1"), ("SK", JSVal.str "2024-01-01")] =
      "eyJQSyI6InUxI2QxIiwiU0siOiIyMDI0LTAxLTAxIn0=" := by
  decide

/-- C4 (as amended): the cursor decoding raises nothing and is decided by `JSON.parse` alone.
For every token whose bytes, as the lenient base64 decoding yields them, are not a JSON text,
it yields `null`, and the `ExclusiveStartKey` passed to the store is `null`; for every token
whose bytes are a JSON text it yields the parsed value, whatever its structure, and that
value is the `ExclusiveStartKey` passed to the store. -/
theorem decodeNextToken_spec (t : String) :
    (jsonParse (utf8Decode (base64Decode (utf16Units t.data))) = none →
      decodeNextToken (some t) = JSVal.null ∧
      ∀ (table : Option String) (w : Args) (p : RangeExpr), w.nextToken = some t →
        (queryParams table w p).ExclusiveStartKey = JSVal.null) ∧
    (∀ v : JSVal, jsonParse (utf8Decode (base64Decode (utf16Units t.data))) = some v →
      decodeNextToken (some t) = v ∧
      ∀ (table : Option String) (w : Args) (p : RangeExpr), w.nextToken = some t →
        (queryParams table w p).ExclusiveStartKey = v) := by
  refine ⟨?_, ?_⟩
  · intro h
    have hd : decodeNextToken (some t) = JSVal.null := by
      simp only [decodeNextToken, h]
      split_ifs <;> rfl
    refine ⟨hd, ?_⟩
    intro table w p hw
    simp only [queryParams, hw, hd]
  · intro v h
    have hne : t ≠ "" := by
      intro e
      rw [e] at h
      have h0 : jsonParse (utf8Decode (base64Decode (utf16Units ("" : String).data))) = none :=
        rfl
      rw [h0] at h
      cases h
    have hd : decodeNextToken (some t) = v := by
      simp only [decodeNextToken, h, hne, if_false]
    refine ⟨hd, ?_⟩
    intro table w p hw
    simp only [queryParams, hw, hd]

/-- C4 (witness): the token `aGVsbG8=` carries the text `hello`, which is not JSON, and
decodes to `null`; the token `WzFd` carries the JSON text `[1]` and decodes to that array. -/
theorem decodeNextToken_spec_witness :
    decodeNextToken (some "aGVsbG8=") = JSVal.null ∧
    decodeNextToken (some "WzFd") = JSVal.arr [JSVal.num "1"] :=
  ⟨((decodeNextToken_spec "aGVsbG8=").1 (by rfl)).1,
    ((decodeNextToken_spec "WzFd").2 (JSVal.arr [JSVal.num "1"]) (by rfl)).1⟩

/-- C4 (counterexample): the token `dHJ1ZQ==` carries the JSON text `true`, which is not a key
object; the token `dHJ1*ZQ`, which is not well-formed base64, is read as the same bytes, and
so is the token that starts with U+0164, whose low 8 bits are those of the letter `d`.  All
three decode to `true`, not to `null`. -/
theorem decodeNextToken_not_validated :
    decodeNextToken (some "dHJ1ZQ==") = JSVal.bool true ∧
    decodeNextToken (some "dHJ1*ZQ") = JSVal.bool true ∧
    decodeNextToken (some (String.mk (Char.ofNat 0x164 :: ("HJ1ZQ==" : String).data))) =
      JSVal.bool true ∧
    decodeNextToken (some "dHJ1ZQ==") ≠ JSVal.null ∧
    decodeNextToken (some "dHJ1*ZQ") ≠ JSVal.null := by
  have h1 : decodeNextToken (some "dHJ1ZQ==") = JSVal.bool true := by rfl
  have h2 : decodeNextToken (some "dHJ1*ZQ") = JSVal.bool true := by rfl
  refine ⟨h1, h2, by rfl, ?_, ?_⟩
  · rw [h1]
    intro hc
    cases hc
  · rw [h2]
    intro hc
    cases hc

end AppsyncWorkshop
